import Mathlib

unseal Rat.mul Rat.inv Rat.add Rat.sub

/-!
Shallow embedding of the libguiding core (include/guiding/guiding.h,
include/guiding/distributions/btree.h, include/guiding/wrapper.h).

The C++ `Float` and the user value type `Value` are modelled by `ℚ`
(exact arithmetic).  The external functionals `guiding::target` and
`std::sqrt` are environment parameters (they live outside the repository);
they are collected in `Env`.  The node pool `std::vector<TreeNode>` is a
`List TreeNode`; machine loops that descend the pool are written as
fuel-bounded recursions returning `Option` (`none` models running out of
the fuel bound, which the C++ code excludes via its monotone-child-index
assertions).
-/

namespace guiding

/-- A vector of `D` scalars (`VectorXf<D>`). -/
abbrev Vec := List ℚ

/-- `TreeNode` of `BTreeDistribution`: child indices into the pool,
accumulated density, value and weight. -/
structure TreeNode where
  children : List ℕ
  density : ℚ
  value : ℚ
  weight : ℚ
deriving Repr, DecidableEq, Inhabited

/-- A node is a leaf iff `children[0] == 0` (index 0 is always the root,
hence never a valid child index). -/
def TreeNode.isLeaf (n : TreeNode) : Bool := n.children.headD 0 == 0

/-- `markAsLeaf` sets `children[0] = 0`. -/
def TreeNode.markAsLeaf (n : TreeNode) : TreeNode :=
  { n with children := n.children.set 0 0 }

/-- External functions consumed by the core: the target functional
`guiding::target` and `std::sqrt` (used by `build` in second-moment mode). -/
structure Env where
  tgt : ℚ → ℚ
  sq : ℚ → ℚ

/-- The identity environment used for concrete evaluations
(`target(value) = value`, as in the spec's end-to-end scenarios). -/
def idEnv : Env := ⟨id, id⟩

/-- `TreeNode::splat`: atomically accumulate one weighted observation. -/
def TreeNode.splatNode (env : Env) (n : TreeNode) (v w : ℚ) (secondMoment : Bool) :
    TreeNode :=
  let t := env.tgt v
  let t := if secondMoment then t * t else t
  { n with weight := n.weight + w, value := n.value + v * w,
           density := n.density + t * w }

/-- `TreeNode::reset`: zero the accumulators, keep the children. -/
def TreeNode.resetNode (n : TreeNode) : TreeNode :=
  { n with density := 0, value := 0, weight := 0 }

/-- `BTreeDistribution<D, V>` together with its configuration fields. -/
structure BTreeDistribution where
  dim : ℕ
  nodes : List TreeNode
  splitThreshold : ℚ
  leafReweighting : Bool
  doFiltering : Bool
  secondMoment : Bool
deriving Repr, DecidableEq, Inhabited

/-- `Arity = 1 << D`. -/
def BTreeDistribution.arity (t : BTreeDistribution) : ℕ := 2 ^ t.dim

/-- A default-constructed node (`std::array` contents are irrelevant for the
claims; we use zeroes, which also makes the node a leaf). -/
def defaultNode (a : ℕ) : TreeNode := ⟨List.replicate a 0, 0, 0, 0⟩

/-- `setUniform`: resize the pool to one node, mark it a leaf and give it
density 1, default value and weight 0. -/
def BTreeDistribution.setUniform (t : BTreeDistribution) : BTreeDistribution :=
  let n0 := (t.nodes.headD (defaultNode t.arity)).markAsLeaf
  { t with nodes := [{ n0 with density := 1, value := 0, weight := 0 }] }

/-- A freshly constructed `BTreeDistribution` for dimension `D`:
default configuration, uniform single-leaf pool. -/
def initialTree (D : ℕ) : BTreeDistribution :=
  BTreeDistribution.setUniform
    { dim := D, nodes := [defaultNode (2 ^ D)], splitThreshold := 1 / 500,
      leafReweighting := true, doFiltering := true, secondMoment := false }

/-- The child-index bits of `indexAt`: bit `d` is set iff `x[d] ≥ 0.5`. -/
def locChildIndex (x : Vec) : ℕ :=
  (x.enum.map fun p => if (1 : ℚ) / 2 ≤ p.2 then 2 ^ p.1 else 0).sum

/-- The per-level coordinate remap of `indexAt`:
`x[d] ← 2·(x[d] − 0.5·slab)`. -/
def locRemap (x : Vec) : Vec :=
  x.map fun xi => if (1 : ℚ) / 2 ≤ xi then 2 * (xi - 1 / 2) else 2 * xi

/-- `indexAt(x, depth)`: fuel-bounded descent to the leaf containing `x`,
returning the leaf's pool index and its depth. -/
def indexAtGo (nodes : List TreeNode) : ℕ → ℕ → Vec → ℕ → Option (ℕ × ℕ)
  | 0, _, _, _ => none
  | fuel + 1, index, x, depth =>
    match nodes[index]? with
    | none => none
    | some n =>
      if n.isLeaf then some (index, depth)
      else
        match n.children[locChildIndex x]? with
        | none => none
        | some newIndex => indexAtGo nodes fuel newIndex (locRemap x) (depth + 1)

/-- `indexAt` with the fuel bound `node_count + 1`. -/
def BTreeDistribution.indexAt (t : BTreeDistribution) (x : Vec) : Option (ℕ × ℕ) :=
  indexAtGo t.nodes (t.nodes.length + 1) 0 x 0

/-- `pdf(x)`: the density of the leaf containing `x`. -/
def BTreeDistribution.pdf (t : BTreeDistribution) (x : Vec) : Option ℚ :=
  (t.indexAt x).bind fun p => (t.nodes[p.1]?).map TreeNode.density

/-- `guiding::computeOverlap`: volume of the intersection of two boxes. -/
def computeOverlap (min1 max1 min2 max2 : Vec) : ℚ :=
  ((min1.zip max1).zip (min2.zip max2)).foldl
    (fun acc p => acc * max (min p.1.2 p.2.2 - max p.1.1 p.2.1) 0) 1

/-- Lower corner of child cell `c` of a cell with corner `nodeMin`:
dimension `d` is shifted by `childSize` iff bit `d` of `c` is set. -/
def childMinOf (nodeMin : Vec) (childSize : ℚ) (c : ℕ) : Vec :=
  nodeMin.enum.map fun p => if Nat.testBit c p.1 then p.2 + childSize else p.2

/-- The sequential child loop of `splatFiltered`, parametrized by the
recursive call `rec nodes poolIndex childMin`. -/
def splatKids (rec : List TreeNode → ℕ → Vec → Option (List TreeNode))
    (cs : List ℕ) (nodeMin : Vec) (childSize : ℚ) :
    List ℕ → List TreeNode → Option (List TreeNode)
  | [], nodes => some nodes
  | c :: rest, nodes =>
    match rec nodes (cs.getD c 0) (childMinOf nodeMin childSize c) with
    | none => none
    | some nodes1 => splatKids rec cs nodeMin childSize rest nodes1

/-- `BTreeDistribution::splatFiltered`: recursive box-filter deposit. -/
def splatFilteredGo (env : Env) (D : ℕ) (sm : Bool) (originMin originMax : Vec)
    (v : ℚ) (w : ℚ) :
    ℕ → List TreeNode → ℕ → Vec → ℚ → Option (List TreeNode)
  | 0, _, _, _, _ => none
  | fuel + 1, nodes, index, nodeMin, nodeSize =>
    let nodeMax := nodeMin.map (· + nodeSize)
    let overlap := computeOverlap originMin originMax nodeMin nodeMax
    if 0 < overlap then
      match nodes[index]? with
      | none => none
      | some n =>
        if n.isLeaf then
          some (nodes.set index (n.splatNode env v (w * overlap) sm))
        else
          splatKids
            (fun ns i cm =>
              splatFilteredGo env D sm originMin originMax v w fuel ns i cm (nodeSize / 2))
            n.children nodeMin (nodeSize / 2) (List.range (2 ^ D)) nodes
    else some nodes

/-- `BTreeDistribution::splat`: unfiltered single-leaf deposit, or the
box-filtered path with `weight / (size * size)` exactly as in the source. -/
def BTreeDistribution.splat (env : Env) (t : BTreeDistribution) (x : Vec) (v w : ℚ) :
    Option BTreeDistribution :=
  if t.doFiltering = false then
    (t.indexAt x).map fun p =>
      { t with nodes :=
          t.nodes.set p.1 ((t.nodes.getD p.1 default).splatNode env v w t.secondMoment) }
  else
    match t.indexAt x with
    | none => none
    | some pr =>
      let size : ℚ := 1 / (2 ^ pr.2 : ℚ)
      let originMin := x.map (· - size / 2)
      let originMax := x.map (· + size / 2)
      let zero := x.map fun _ => 0
      (splatFilteredGo env t.dim t.secondMoment originMin originMax v
          (w / (size * size)) (t.nodes.length + 1) t.nodes 0 zero 1).map
        fun ns => { t with nodes := ns }

/-- Marginal sums of `sample`: `pSum f b cnt = Σ_{j < cnt, j % 2 = b} f j`,
mirroring the `p[child & 1] += …` accumulation. -/
def pSum (f : ℕ → ℚ) (b : ℕ) : ℕ → ℚ
  | 0 => 0
  | n + 1 => pSum f b n + (if n % 2 = b then f n else 0)

/-- Density of the child reached through slot `j * 2^d + c` of `cs`
(the `(child << dim) | childIndex` slot arithmetic of `sample`). -/
def childDensity (nodes : List TreeNode) (cs : List ℕ) (d c j : ℕ) : ℚ :=
  (nodes.getD (cs.getD (j * 2 ^ d + c) 0) default).density

/-- The normalized marginal `p[0] /= p[0] + p[1]` of one dimension step of
`sample`: the relative mass of the lower slab among the children compatible
with the partial child index `c` (whose bits lie below `d`). -/
def marginalP0n (nodes : List TreeNode) (cs : List ℕ) (rem d c : ℕ) : ℚ :=
  pSum (fun j => childDensity nodes cs d c j) 0 (2 ^ (rem + 1)) /
    (pSum (fun j => childDensity nodes cs d c j) 0 (2 ^ (rem + 1)) +
      pSum (fun j => childDensity nodes cs d c j) 1 (2 ^ (rem + 1)))

/-- One dimension step of `sample`'s per-level loop: choose the slab by
`x[d] > p[0]`, renormalize `x[d]`, advance `base[d]` and the child bit.
The last component is a ghost flag that is `false` iff the comparison landed
exactly on the boundary `x[d] = p[0]` (the computed values are exactly those
of the source; the flag only instruments the edge case). -/
def dimStep (p0n scale : ℚ) (d c : ℕ) (x base : Vec) : ℕ × Vec × Vec × Bool :=
  let xd := x.getD d 0
  let slab := p0n < xd
  ((if slab then c + 2 ^ d else c),
   x.set d (if slab then (xd - p0n) / (1 - p0n) else xd / p0n),
   (if slab then base.set d (base.getD d 0 + scale / 2) else base),
   decide (xd ≠ p0n))

/-- The per-level dimension loop of `sample`.  `rem` is the number of not yet
sampled dimensions, `d` the current dimension, `c` the child index under
construction.  Returns the chosen child index, the remapped `x`, the updated
`base`, and the conjunction of the per-dimension ghost boundary flags. -/
def dimLoop (nodes : List TreeNode) (cs : List ℕ) (scale : ℚ) :
    ℕ → ℕ → ℕ → Vec → Vec → ℕ × Vec × Vec × Bool
  | 0, _, c, x, base => (c, x, base, true)
  | rem + 1, d, c, x, base =>
    let s := dimStep (marginalP0n nodes cs rem d c) scale d c x base
    let r := dimLoop nodes cs scale rem (d + 1) s.1 s.2.1 s.2.2.1
    (r.1, r.2.1, r.2.2.1, s.2.2.2 && r.2.2.2)

/-- `BTreeDistribution::sample`: hierarchical sample warp.  Returns the warped
point, the pdf (the reached leaf's density — the source initializes `pdf = 1`
and multiplies it once by the leaf density), the leaf's pool index, and the
conjunction of the ghost boundary flags of all levels. -/
def sampleGo (t : BTreeDistribution) : ℕ → ℕ → Vec → Vec → ℚ → Option (Vec × ℚ × ℕ × Bool)
  | 0, _, _, _, _ => none
  | fuel + 1, index, x, base, scale =>
    match t.nodes[index]? with
    | none => none
    | some n =>
      if n.isLeaf then
        some (List.zipWith (fun b xi => b + scale * xi) base x, n.density, index, true)
      else
        let r := dimLoop t.nodes n.children scale t.dim 0 0 x base
        match n.children[r.1]? with
        | none => none
        | some ci =>
          match sampleGo t fuel ci r.2.1 r.2.2.1 (scale / 2) with
          | none => none
          | some q => some (q.1, q.2.1, q.2.2.1, r.2.2.2 && q.2.2.2)

/-- `sample` from the root with fuel bound `node_count + 1`. -/
def BTreeDistribution.sample (t : BTreeDistribution) (x : Vec) :
    Option (Vec × ℚ × ℕ × Bool) :=
  sampleGo t (t.nodes.length + 1) 0 x (x.map fun _ => 0) 1

/-- The sequential child loop of the first `build` pass, parametrized by the
recursive call.  State: `(newNodes, validCount, density, value, weight)`.
Each step appends the child's block, registers the child's new index in the
parent's slot, and accumulates the child if its new weight is `≥ 0`. -/
def buildKids (rec : ℕ → List TreeNode → Option (List TreeNode)) (parentAbs : ℕ) :
    List (ℕ × ℕ) → List TreeNode × ℕ × ℚ × ℚ × ℚ →
    Option (List TreeNode × ℕ × ℚ × ℚ × ℚ)
  | [], st => some st
  | (slot, c) :: rest, (acc, vc, dsum, vsum, wsum) =>
    let newChildIndex := acc.length
    match rec c acc with
    | none => none
    | some acc1 =>
      let pn := acc1.getD parentAbs default
      let acc2 := acc1.set parentAbs { pn with children := pn.children.set slot newChildIndex }
      let ch := acc2.getD newChildIndex default
      if 0 ≤ ch.weight then
        buildKids rec parentAbs rest
          (acc2, vc + 1, dsum + ch.density, vsum + ch.value, wsum + ch.weight)
      else buildKids rec parentAbs rest (acc2, vc, dsum, vsum, wsum)

/-- First pass of `build` (`build(size_t, std::vector<TreeNode>&, Float)`).
Appends the rebuilt subtree of `index` to `acc` in pre-order.  The
`validCount = 4` override for disabled leaf reweighting is hard-coded in the
source and is reproduced as such. -/
def buildGo (env : Env) (t : BTreeDistribution) :
    ℕ → ℕ → ℚ → List TreeNode → Option (List TreeNode)
  | 0, _, _, _ => none
  | fuel + 1, index, scale, acc =>
    match t.nodes[index]? with
    | none => none
    | some node =>
      let newIndex := acc.length
      if node.isLeaf then
        if t.leafReweighting = true ∧ node.weight < 1 / 1000 then
          some (acc ++ [{ node with weight := -1 }])
        else
          let w := if t.leafReweighting then 1 / node.weight else scale
          let d := node.density * w
          let d := if t.secondMoment then env.sq d else d
          let nl := node.markAsLeaf
          some (acc ++ [{ nl with density := d, value := node.value * w, weight := node.weight }])
      else
        match buildKids (fun c a => buildGo env t fuel c (scale * (t.arity : ℚ)) a)
            newIndex node.children.enum (acc ++ [node], 0, 0, 0, 0) with
        | none => none
        | some st =>
          let acc2 := st.1
          let vc := if t.leafReweighting = false then 4 else st.2.1
          let dsum := st.2.2.1
          let vsum := st.2.2.2.1
          let wsum := st.2.2.2.2
          if vc = 0 then
            some (acc2.set newIndex { (acc2.getD newIndex default) with weight := -1 })
          else
            let pn := acc2.getD newIndex default
            let acc3 := acc2.set newIndex
              { pn with density := dsum / (vc : ℚ), value := vsum / (vc : ℚ), weight := wsum }
            if vc < t.arity then
              some ((acc3.take (newIndex + 1)).set newIndex
                ((acc3.getD newIndex default).markAsLeaf))
            else some acc3

/-- `BTreeDistribution::build`: run the first pass, fall back to `setUniform`
for a degenerate root, otherwise normalize densities (and, without leaf
reweighting, divide values by the root weight). -/
def BTreeDistribution.build (env : Env) (t : BTreeDistribution) :
    Option BTreeDistribution :=
  match buildGo env t (t.nodes.length + 1) 0 1 [] with
  | none => none
  | some ns =>
    match ns[0]? with
    | none => none
    | some root =>
      if root.weight ≤ 0 ∨ root.density = 0 then some t.setUniform
      else
        let norm := root.density
        let rw := root.weight
        some { t with nodes := ns.map fun n =>
          { n with density := n.density / norm,
                   value := if t.leafReweighting = false then n.value / rw else n.value } }

/-- `BTreeDistribution::split`: append `Arity` copies of the leaf at
`parentIndex` and register them as its children. -/
def splitNodes (nodes : List TreeNode) (parentIndex a : ℕ) : List TreeNode :=
  let childIndex := nodes.length
  let p := nodes.getD parentIndex default
  (nodes ++ List.replicate a p).set parentIndex
    { p with children := (List.range a).map (childIndex + ·) }

/-- The child loop of `refine`; the parent's child entry is re-read from the
current pool on every iteration, as in the source. -/
def refineKids (rec : ℕ → List TreeNode → Option (List TreeNode)) (parentIndex : ℕ) :
    List ℕ → List TreeNode → Option (List TreeNode)
  | [], nodes => some nodes
  | slot :: rest, nodes =>
    match rec ((nodes.getD parentIndex default).children.getD slot 0) nodes with
    | none => none
    | some nodes1 => refineKids rec parentIndex rest nodes1

/-- `BTreeDistribution::refine(index, scale)`: split leaves whose
`density / scale` reaches the split threshold, reset the others, recurse into
all children with `scale * Arity`. -/
def refineGo (threshold : ℚ) (a : ℕ) :
    ℕ → ℕ → ℚ → List TreeNode → Option (List TreeNode)
  | 0, _, _, _ => none
  | fuel + 1, index, scale, nodes =>
    match nodes[index]? with
    | none => none
    | some n =>
      if n.isLeaf then
        if threshold ≤ n.density / scale then
          refineKids (fun c ns => refineGo threshold a fuel c (scale * (a : ℚ)) ns)
            index (List.range a) (splitNodes nodes index a)
        else some (nodes.set index n.resetNode)
      else
        refineKids (fun c ns => refineGo threshold a fuel c (scale * (a : ℚ)) ns)
          index (List.range a) nodes

/-- `refine()` from the root with an explicit fuel bound (the recursion of
`refine` is not bounded by the node count: it splits while it descends). -/
def BTreeDistribution.refine (t : BTreeDistribution) (fuel : ℕ) :
    Option BTreeDistribution :=
  (refineGo t.splitThreshold t.arity fuel 0 1 t.nodes).map fun ns => { t with nodes := ns }

/-- One item of the binary stream: the `u64` node count / `i32` child indices
are `nat` items, the scalar fields are `rat` items. -/
inductive Tok where
  | nat (n : ℕ)
  | rat (q : ℚ)
deriving DecidableEq, Repr

/-- `TreeNode::write`: density, value, weight, children, in this order. -/
def TreeNode.writeNode (n : TreeNode) : List Tok :=
  Tok.rat n.density :: Tok.rat n.value :: Tok.rat n.weight :: n.children.map Tok.nat

/-- `BTreeDistribution::write`: `u64` node count, then each node in pool
order. -/
def BTreeDistribution.writeTree (t : BTreeDistribution) : List Tok :=
  Tok.nat t.nodes.length :: t.nodes.flatMap TreeNode.writeNode

/-- Read `k` child indices from the stream. -/
def readNats : ℕ → List Tok → Option (List ℕ × List Tok)
  | 0, s => some ([], s)
  | k + 1, Tok.nat m :: s => (readNats k s).map fun p => (m :: p.1, p.2)
  | _ + 1, _ => none

/-- `TreeNode::read` for a node with `a` children. -/
def readNode (a : ℕ) : List Tok → Option (TreeNode × List Tok)
  | Tok.rat d :: Tok.rat v :: Tok.rat w :: s =>
    (readNats a s).map fun p => (⟨p.1, d, v, w⟩, p.2)
  | _ => none

/-- Read `k` consecutive nodes. -/
def readNodes (a : ℕ) : ℕ → List Tok → Option (List TreeNode × List Tok)
  | 0, s => some ([], s)
  | k + 1, s =>
    (readNode a s).bind fun p =>
      (readNodes a k p.2).map fun q => (p.1 :: q.1, q.2)

/-- `BTreeDistribution::read`: node count, resize, then node fields. -/
def BTreeDistribution.readTree (t : BTreeDistribution) (s : List Tok) :
    Option (BTreeDistribution × List Tok) :=
  match s with
  | Tok.nat cnt :: s1 =>
    (readNodes t.arity cnt s1).map fun p => ({ t with nodes := p.1 }, p.2)
  | _ => none

/-- `Wrapper::sample`: mix the tree sampler with the uniform fallback.  The
delegation branch passes `pdf` by reference into the tree's `sample`, which
overwrites it with `1` before multiplying in the leaf density, so the value
added to `uniformProb` there is the bare tree pdf. -/
def wrapperSample (u : ℚ) (T : BTreeDistribution) (x : Vec) : Option (Vec × ℚ) :=
  if u = 1 then some (x, 1)
  else if x.headD 0 < u then
    let x1 := x.set 0 (x.headD 0 / u)
    (T.pdf x1).map fun p => (x1, (1 - u) * p + u)
  else
    let x1 := x.set 0 ((x.headD 0 - u) / (1 - u))
    (T.sample x1).map fun r => (r.1, r.2.1 + u)

/-- `Wrapper::pdf`: `uniform_prob + (1 − uniform_prob) · sampling.pdf(x)`. -/
def wrapperPdf (u : ℚ) (T : BTreeDistribution) (x : Vec) : Option ℚ :=
  if u = 1 then some 1 else (T.pdf x).map fun p => u + (1 - u) * p

/-- The milestone counters of `Wrapper`: `m_samplesSoFar` and
`m_nextMilestone`. -/
structure WCounter where
  n : ℕ
  milestone : ℕ
deriving DecidableEq, Repr

/-- One `Wrapper::splat` as seen by the counters: increment `m_samplesSoFar`;
if it exceeds `m_nextMilestone`, run `step` (which re-checks the milestone and
doubles it).  The returned flag reports whether `step` rebuilt. -/
def wcStep (s : WCounter) : WCounter × Bool :=
  let n1 := s.n + 1
  if s.milestone < n1 then
    if n1 < s.milestone then ({ n := n1, milestone := s.milestone }, false)
    else ({ n := n1, milestone := s.milestone * 2 }, true)
  else ({ n := n1, milestone := s.milestone }, false)

/-- Counter state after `k` sequential `splat` calls on a fresh wrapper
(`m_samplesSoFar = 0`, `m_nextMilestone = 1024`). -/
def wcAfter : ℕ → WCounter
  | 0 => ⟨0, 1024⟩
  | k + 1 => (wcStep (wcAfter k)).1

/-- Whether the `k`-th `splat` (1-based) triggers a rebuild. -/
def rebuildAt : ℕ → Bool
  | 0 => false
  | k + 1 => (wcStep (wcAfter k)).2

/-- Sum of the densities referenced by a child list. -/
def childSum (nodes : List TreeNode) (cs : List ℕ) : ℚ :=
  (cs.map fun c => (nodes.getD c default).density).sum

/-- The divisor `build` actually applies at internal nodes: `validCount`
(which surviving internal nodes force to `Arity`) with leaf reweighting, the
hard-coded `4` without it. -/
def divisorC (t : BTreeDistribution) : ℕ := if t.leafReweighting then t.arity else 4

/-- Structural pool invariant: every node has `Arity` child slots, and the
children of internal nodes are strictly larger than the parent index and lie
inside the pool. -/
def StructOK (a : ℕ) (nodes : List TreeNode) : Prop :=
  ∀ i, i < nodes.length →
    (nodes.getD i default).children.length = a ∧
    ((nodes.getD i default).isLeaf = false →
      ∀ c ∈ (nodes.getD i default).children, i < c ∧ c < nodes.length)

/-- Accumulator invariant: densities and weights are non-negative. -/
def AccumOK (nodes : List TreeNode) : Prop :=
  ∀ n ∈ nodes, 0 ≤ n.density ∧ 0 ≤ n.weight

/-- Post-build density bookkeeping: at every internal node the densities of
the children sum to `dc` times the node's density. -/
def SumOK (dc : ℕ) (nodes : List TreeNode) : Prop :=
  ∀ i, i < nodes.length →
    (nodes.getD i default).isLeaf = false →
    (dc : ℚ) * (nodes.getD i default).density =
      childSum nodes (nodes.getD i default).children

/-- Sum of `density · volume` over the leaves of the subtree at `index`,
where `vol` is the volume of the node's cell (each descent divides it by
`Arity`). -/
def leafMass (nodes : List TreeNode) (a : ℕ) : ℕ → ℕ → ℚ → Option ℚ
  | 0, _, _ => none
  | fuel + 1, index, vol =>
    match nodes[index]? with
    | none => none
    | some n =>
      if n.isLeaf then some (n.density * vol)
      else
        (n.children.mapM fun c => leafMass nodes a fuel c (vol / (a : ℚ))).map
          fun l => l.sum

/-- `TreeNode::depth`: one plus the maximal child depth, 1 at a leaf. -/
def depthGo (nodes : List TreeNode) : ℕ → ℕ → Option ℕ
  | 0, _ => none
  | fuel + 1, index =>
    match nodes[index]? with
    | none => none
    | some n =>
      if n.isLeaf then some 1
      else (n.children.mapM (depthGo nodes fuel)).map fun l => l.foldl max 0 + 1

/-- `depth()` from the root with the fuel bound `node_count + 1`. -/
def BTreeDistribution.depth (t : BTreeDistribution) : Option ℕ :=
  depthGo t.nodes (t.nodes.length + 1) 0

/-- Range invariant of a rebuilt pool: every node in `[lo, hi)` has `a` child
slots and non-negative density and weight, and every internal one points to
strictly larger in-range children whose densities sum to `dc` times its own
density. -/
def GoodRange (a dc : ℕ) (nodes : List TreeNode) (lo hi : ℕ) : Prop :=
  ∀ j, lo ≤ j → j < hi →
    (nodes.getD j default).children.length = a ∧
    0 ≤ (nodes.getD j default).density ∧
    0 ≤ (nodes.getD j default).weight ∧
    ((nodes.getD j default).isLeaf = false →
      (∀ c ∈ (nodes.getD j default).children, j < c ∧ c < hi) ∧
      (dc : ℚ) * (nodes.getD j default).density =
        childSum nodes (nodes.getD j default).children)

/-- Value of a little-endian slab-bit list, starting at bit `d`
(the child index accumulated by the per-dimension loops). -/
def bitsVal (d : ℕ) : List Bool → ℕ
  | [] => 0
  | s :: rest => (if s then 2 ^ d else 0) + bitsVal (d + 1) rest

/-- Recombine one level's slab bits with the child-local coordinates:
the parent-local coordinate is `(slab + child) / 2` per dimension. -/
def mkCoord (slabs : List Bool) (w : Vec) : Vec :=
  List.zipWith (fun s q => ((if s then (1 : ℚ) else 0) + q) / 2) slabs w

/-- Trees reachable through the public operations: construction (also
`reset`), `splat` (under the documented non-negativity contract of its
arguments and of `target`), `build` (with a square root that preserves
non-negativity) and `refine`. -/
inductive Reachable : BTreeDistribution → Prop where
  | init (D : ℕ) : Reachable (initialTree D)
  | splatStep (env : Env) (t t' : BTreeDistribution) (x : Vec) (v w : ℚ) :
      Reachable t → 0 ≤ v → 0 ≤ w → (∀ q, 0 ≤ q → 0 ≤ env.tgt q) →
      t.splat env x v w = some t' → Reachable t'
  | buildStep (env : Env) (t t' : BTreeDistribution) :
      Reachable t → (∀ q, 0 ≤ q → 0 ≤ env.sq q) →
      t.build env = some t' → Reachable t'
  | refineStep (t t' : BTreeDistribution) (fuel : ℕ) :
      Reachable t → t.refine fuel = some t' → Reachable t'

/-- A leaf accumulator node with `a` (zeroed) child slots. -/
def leafNode (a : ℕ) (d w : ℚ) : TreeNode := ⟨List.replicate a 0, d, 0, w⟩

/-- A two-leaf `D = 1` training tree (leaf reweighting on): the left leaf
accumulated density 4 with weight 3, the right leaf density 2 with weight 3. -/
def bt1 : BTreeDistribution :=
  { dim := 1, nodes := [⟨[1, 2], 0, 0, 0⟩, leafNode 2 4 3, leafNode 2 2 3],
    splitThreshold := 1 / 500, leafReweighting := true, doFiltering := true,
    secondMoment := false }

/-- A two-leaf `D = 1` training tree with leaf reweighting off; both leaves
accumulated density 1 with weight 1. -/
def bt1off : BTreeDistribution :=
  { dim := 1, nodes := [⟨[1, 2], 0, 0, 0⟩, leafNode 2 1 1, leafNode 2 1 1],
    splitThreshold := 1 / 500, leafReweighting := false, doFiltering := true,
    secondMoment := false }

/-- An eight-leaf `D = 3` training tree with leaf reweighting off; every leaf
accumulated density 1 with weight 1. -/
def bt3off : BTreeDistribution :=
  { dim := 3,
    nodes := ⟨[1, 2, 3, 4, 5, 6, 7, 8], 0, 0, 0⟩ ::
      (List.range 8).map (fun _ => leafNode 8 1 1),
    splitThreshold := 1 / 500, leafReweighting := false, doFiltering := true,
    secondMoment := false }

/-- A two-leaf `D = 1` tree with empty accumulators, used as a filtered-splat
target. -/
def btSplit : BTreeDistribution :=
  { dim := 1, nodes := [⟨[1, 2], 0, 0, 0⟩, leafNode 2 0 0, leafNode 2 0 0],
    splitThreshold := 1 / 500, leafReweighting := true, doFiltering := true,
    secondMoment := false }

/-- `btSplit` with filtering disabled (unfiltered splat target). -/
def btOff : BTreeDistribution := { btSplit with doFiltering := false }

/-- The pool produced by the first (pre-normalization) build pass over `bt1`;
the root's density already equals the mean of its children's. -/
def bt1pre : List TreeNode :=
  [⟨[1, 2], 1, 0, 6⟩, ⟨[0, 0], 4 / 3, 0, 3⟩, ⟨[0, 0], 2 / 3, 0, 3⟩]

/-- The result of `bt1.build`: the normalized tree over `bt1pre`. -/
def bt1built : BTreeDistribution := ⟨1, bt1pre, 1 / 500, true, true, false⟩

/-- C1.  In the tree-delegation branch of `Wrapper::sample` (taken here since
`x[0] = 3/4 ≥ uniform_prob = 1/2`) the returned pdf is `3/2`: the tree's
`sample` overwrites the pre-initialized `pdf = 1 − uniform_prob` with `1`
before multiplying in the leaf density, so the wrapper returns
`p_tree + uniform_prob` instead of `uniform_prob · 1 + (1 − uniform_prob) ·
p_tree`.  With a uniform sampling tree the tree pdf at the returned point is
`1`, so the claimed value would be `1`, but the code returns `3/2` (which also
disagrees with `Wrapper::pdf` at the same point). -/
theorem wrapper_sample_pdf_mixture :
    wrapperSample (1 / 2) (initialTree 1) [3 / 4] = some ([1 / 2], 3 / 2) ∧
    wrapperPdf (1 / 2) (initialTree 1) [1 / 2] = some 1 ∧
    ¬((3 : ℚ) / 2 = 1 / 2 * 1 + (1 - 1 / 2) * 1) := by decide

/-- C2.  The box-filtered splat scales deposits by `weight / (size * size)`
(hard-coded square), not by `weight / size^D`.  For `D = 1`, splatting at
`x = 1/4` with weight 1 into a tree whose containing leaf has depth 1
(`size = 1/2`, deposit box `[0, 1/2]`, overlap with the left leaf `1/2`)
increments the left leaf's weight by `2 = 1 · (1/2) / (1/2)²`, whereas the
claimed scaling `weight · overlap / size^D = 1 · (1/2) / (1/2)^1` is `1`. -/
theorem splat_filtered_volume_scaling :
    (btSplit.splat idEnv [1 / 4] 1 1).map
      (fun T => (T.nodes.getD 1 default).weight) = some 2 ∧
    ¬((2 : ℚ) = 1 * (1 / 2) / (1 / 2) ^ 1) := by decide

/-- C3.  With leaf reweighting off, `build` overrides `validCount = 4`
(hard-coded), not `2^D`.  For `D = 1` (two leaves, each with accumulated
density 1 and weight 1) the built root has density 1 while its children's
densities sum to 4, i.e. the divisor applied was 4 and not `2^D = 2`.  For
`D = 3` (eight valid leaves) the override makes `validCount = 4 < Arity = 8`,
so the root is truncated back to a leaf: the rebuilt tree has a single node
even though every child was valid. -/
theorem build_child_divisor_hardcoded :
    ((bt1off.build idEnv).map fun T =>
      ((T.nodes.getD 0 default).density,
        childSum T.nodes (T.nodes.getD 0 default).children)) = some (1, 4) ∧
    ¬((4 : ℚ) = 2 ^ 1 * 1) ∧
    ((bt3off.build idEnv).map fun T =>
      (T.nodes.length, (T.nodes.getD 0 default).isLeaf)) = some (1, true) ∧
    bt3off.nodes.length = 9 := by decide

/-- C5 counterexample.  Building `bt1off` (leaf reweighting off, `D = 1`)
succeeds with root weight `2 > 0` and density `≠ 0`, and normalization makes
the root density 1; but the sum over the leaves of `density · volume` is `2`,
not `1`, because the internal divisor is the hard-coded 4 instead of
`2^D = 2`. -/
theorem leaf_mass_not_one_without_reweighting :
    ((bt1off.build idEnv).map fun T =>
      ((T.nodes.getD 0 default).density, leafMass T.nodes T.arity 5 0 1)) =
      some (1, some 2) ∧ ¬((2 : ℚ) = 1) := by decide

/-- C6 counterexample.  On the tree built from `bt1` (leaf densities `4/3` and
`2/3`), the input `x = [2/3]` hits the comparison boundary exactly
(`x[0] = p[0] = 2/3` after normalization): `sample` descends into the LEFT
leaf (slab test `x > p[0]` is false), remaps `x` to `1`, and returns the point
`1/2` with pdf `4/3`; but `pdf([1/2])` locates the RIGHT leaf (test
`x ≥ 0.5`), whose density is `2/3 ≠ 4/3`. -/
theorem sample_pdf_boundary_mismatch :
    (bt1.build idEnv).map (fun T => T.sample [2 / 3]) =
      some (some ([1 / 2], 4 / 3, 1, false)) ∧
    (bt1.build idEnv).map (fun T => T.pdf [1 / 2]) = some (some (2 / 3)) ∧
    ¬((4 : ℚ) / 3 = 2 / 3) := by decide

/-- C9 counterexample.  `refine` on the freshly constructed `D = 1` tree
(one node, density 1) is not bounded by the node count: with fuel for
`node_count() = 1` nodes per root-to-leaf path the recursion does not finish
(the root leaf's criterion `1 ≥ 0.002` makes it split and descend). -/
theorem refine_fuel_exceeds_node_count :
    ((initialTree 1).refine (initialTree 1).nodes.length = none) ∧
    (initialTree 1).nodes.length = 1 := by decide

/-- `m_samplesSoFar` equals the number of splats performed. -/
theorem wcAfter_n (k : ℕ) : (wcAfter k).n = k := by
  induction k with
  | zero => rfl
  | succ k ih =>
    simp only [wcAfter, wcStep]
    split
    · split <;> simp [ih]
    · simp [ih]

/-- Milestone invariant: the milestone is `1024 · 2^r`, it is at least the
sample count, and it is either still the initial 1024 or below twice the
sample count. -/
theorem wcAfter_milestone_inv (k : ℕ) :
    (∃ r, (wcAfter k).milestone = 1024 * 2 ^ r) ∧ k ≤ (wcAfter k).milestone ∧
    ((wcAfter k).milestone = 1024 ∨ (wcAfter k).milestone < 2 * k) := by
  induction k with
  | zero => exact ⟨⟨0, rfl⟩, by simp [wcAfter], Or.inl rfl⟩
  | succ k ih =>
    obtain ⟨⟨r, hr⟩, hle, hd⟩ := ih
    have hn := wcAfter_n k
    simp only [wcAfter, wcStep, hn]
    by_cases h : (wcAfter k).milestone < k + 1
    · have hmk : (wcAfter k).milestone = k := le_antisymm (by omega) hle
      have h2 : ¬ (k + 1 < (wcAfter k).milestone) := by omega
      simp only [if_pos h, if_neg h2]
      refine ⟨⟨r + 1, by rw [pow_succ]; omega⟩, by omega, Or.inr (by omega)⟩
    · simp only [if_neg h]
      refine ⟨⟨r, hr⟩, by omega, ?_⟩
      rcases hd with h1 | h1
      · exact Or.inl h1
      · exact Or.inr (by omega)

/-- The `k+1`-st splat rebuilds exactly when the milestone equals the previous
sample count (i.e. the increment makes the counter exceed the milestone). -/
theorem rebuildAt_succ_iff (k : ℕ) :
    rebuildAt (k + 1) = true ↔ (wcAfter k).milestone = k := by
  have hn := wcAfter_n k
  have hle := (wcAfter_milestone_inv k).2.1
  simp only [rebuildAt, wcStep, hn]
  by_cases h : (wcAfter k).milestone < k + 1
  · have h2 : ¬ (k + 1 < (wcAfter k).milestone) := by omega
    simp only [if_pos h, if_neg h2]
    constructor
    · intro _; omega
    · intro _; trivial
  · simp only [if_neg h]
    constructor
    · intro hh; exact absurd hh (by simp)
    · intro hh; omega

/-- Strict monotonicity helper for milestone powers. -/
theorem pow_lt_pow_iff_base2 {j r : ℕ} (h : 1024 * 2 ^ j < 1024 * 2 ^ r) : j < r := by
  by_contra hc
  push_neg at hc
  have : (2:ℕ) ^ r ≤ 2 ^ j := Nat.pow_le_pow_right (by norm_num) hc
  omega

/-- C4 counterexample.  Feeding a fresh wrapper one splat at a time, after
1023 splats the milestone is 1024, yet the 1024-th splat does not rebuild
(`++m_samplesSoFar > m_nextMilestone` is strict); the rebuild happens on the
1025-th splat instead.  The claim's "the n-th splat triggers a rebuild iff n
equals the current milestone" fails at n = 1024. -/
theorem rebuild_not_at_milestone :
    (wcAfter 1023).milestone = 1024 ∧ rebuildAt 1024 = false ∧
    rebuildAt 1025 = true := by
  have h1023 : (wcAfter 1023).milestone = 1024 := by
    obtain ⟨⟨r, hr⟩, hle, hd⟩ := wcAfter_milestone_inv 1023
    rcases hd with h1 | h1
    · exact h1
    · have hp : (1:ℕ) ≤ 2 ^ r := Nat.one_le_two_pow
      omega
  have h1024 : (wcAfter 1024).milestone = 1024 := by
    obtain ⟨⟨r, hr⟩, hle, hd⟩ := wcAfter_milestone_inv 1024
    rcases hd with h1 | h1
    · exact h1
    · have hp : (1:ℕ) ≤ 2 ^ r := Nat.one_le_two_pow
      omega
  refine ⟨h1023, ?_, ?_⟩
  · have h3 := rebuildAt_succ_iff 1023
    rw [h1023] at h3
    have h4 : ¬ rebuildAt 1024 = true := by
      intro hh
      have := h3.1 hh
      omega
    simpa using h4
  · exact (rebuildAt_succ_iff 1024).2 (by omega)

/-- C4 (amended).  Feeding the wrapper splats one at a time, a rebuild runs on
the `k+1`-st splat iff `k` is a milestone value `1024 · 2^j` (so rebuilds
happen at sample counts 1025, 2049, 4097, …, one past each milestone), and
the milestone doubles on every rebuild. -/
theorem rebuild_schedule_doubling (k : ℕ) :
    (rebuildAt (k + 1) = true ↔ ∃ j, k = 1024 * 2 ^ j) ∧
    (rebuildAt (k + 1) = true →
      (wcAfter (k + 1)).milestone = 2 * (wcAfter k).milestone) := by
  obtain ⟨⟨r, hr⟩, hle, hd⟩ := wcAfter_milestone_inv k
  constructor
  · rw [rebuildAt_succ_iff]
    constructor
    · intro h; exact ⟨r, by omega⟩
    · rintro ⟨j, hj⟩
      by_contra hne
      have hkm : k < (wcAfter k).milestone := by omega
      have hjr : j < r := pow_lt_pow_iff_base2 (by omega)
      have h2 : 1024 * 2 ^ (j + 1) ≤ 1024 * 2 ^ r := by
        have : (2:ℕ) ^ (j+1) ≤ 2 ^ r := Nat.pow_le_pow_right (by norm_num) (by omega)
        omega
      rw [pow_succ] at h2
      have hge : 2 * k ≤ (wcAfter k).milestone := by omega
      have hm1024 : (wcAfter k).milestone = 1024 := by
        rcases hd with h1 | h1
        · exact h1
        · omega
      have hk1 : 1024 ≤ k := by
        have : (1:ℕ) ≤ 2 ^ j := Nat.one_le_two_pow
        omega
      omega
  · intro h
    rw [rebuildAt_succ_iff] at h
    have hn := wcAfter_n k
    simp only [wcAfter, wcStep, hn]
    have h1 : (wcAfter k).milestone < k + 1 := by omega
    have h2 : ¬ (k + 1 < (wcAfter k).milestone) := by omega
    simp only [if_pos h1, if_neg h2]
    omega

/-- C4 witness: the schedule theorem at the first milestone — the 1025-th
splat rebuilds (`1024 = 1024 · 2^0`) and the milestone doubles there. -/
theorem rebuild_schedule_doubling_witness :
    (rebuildAt 1025 = true ↔ ∃ j, 1024 = 1024 * 2 ^ j) ∧
    (rebuildAt 1025 = true →
      (wcAfter 1025).milestone = 2 * (wcAfter 1024).milestone) :=
  rebuild_schedule_doubling 1024


/-- The head of a list whose position 0 was set to 0 is 0. -/
theorem head?_set_zero (l : List ℕ) : ((l.set 0 0).head?).getD 0 = 0 := by
  cases l <;> simp

/-- `markAsLeaf` makes `isLeaf` true. -/
theorem markAsLeaf_isLeaf (n : TreeNode) : n.markAsLeaf.isLeaf = true := by
  simp only [TreeNode.isLeaf, TreeNode.markAsLeaf]
  cases hc : n.children with
  | nil => rfl
  | cons a l => simp

/-- `pdf` on a single-leaf pool returns the leaf's density for every input. -/
theorem pdf_of_single_leaf (t : BTreeDistribution) (n : TreeNode)
    (hn : t.nodes = [n]) (hl : n.isLeaf = true) (x : Vec) :
    t.pdf x = some n.density := by
  simp [BTreeDistribution.pdf, BTreeDistribution.indexAt, hn, indexAtGo, hl]

/-- The pool produced by `setUniform`. -/
theorem setUniform_nodes (t : BTreeDistribution) :
    t.setUniform.nodes =
      [{ (t.nodes.headD (defaultNode t.arity)).markAsLeaf with
          density := 1, value := 0, weight := 0 }] := rfl

/-- The single `setUniform` node is a leaf. -/
theorem setUniform_leaf (t : BTreeDistribution) :
    (t.setUniform.nodes.getD 0 default).isLeaf = true := by
  rw [setUniform_nodes]
  simp only [List.getD, List.getElem?_cons_zero, Option.getD_some]
  have := markAsLeaf_isLeaf (t.nodes.headD (defaultNode t.arity))
  simpa [TreeNode.isLeaf, TreeNode.markAsLeaf] using this

/-- After `setUniform` the pdf is 1 everywhere. -/
theorem setUniform_pdf (t : BTreeDistribution) (x : Vec) :
    t.setUniform.pdf x = some 1 := by
  rw [pdf_of_single_leaf t.setUniform _ (setUniform_nodes t) ?_]
  · have := markAsLeaf_isLeaf (t.nodes.headD (defaultNode t.arity))
    simpa [TreeNode.isLeaf, TreeNode.markAsLeaf] using this

/-- C7.  If the first build pass leaves the root with `weight ≤ 0` or
`density = 0` (in particular for a tree that received no splats), `build`
replaces the tree by the uniform state: exactly one node, a leaf with
density 1, default value and weight 0, and `pdf(x) = 1` for every `x`. -/
theorem build_degenerate_sets_uniform (env : Env) (t : BTreeDistribution)
    (ns : List TreeNode) (root : TreeNode)
    (h1 : buildGo env t (t.nodes.length + 1) 0 1 [] = some ns)
    (h2 : ns[0]? = some root)
    (h3 : root.weight ≤ 0 ∨ root.density = 0) :
    t.build env = some t.setUniform ∧
    t.setUniform.nodes.length = 1 ∧
    (t.setUniform.nodes.getD 0 default).isLeaf = true ∧
    (t.setUniform.nodes.getD 0 default).density = 1 ∧
    (t.setUniform.nodes.getD 0 default).value = 0 ∧
    (t.setUniform.nodes.getD 0 default).weight = 0 ∧
    ∀ x : Vec, t.setUniform.pdf x = some 1 := by
  refine ⟨?_, by rw [setUniform_nodes]; rfl, setUniform_leaf t,
    by rw [setUniform_nodes]; rfl, by rw [setUniform_nodes]; rfl,
    by rw [setUniform_nodes]; rfl, setUniform_pdf t⟩
  simp only [BTreeDistribution.build, h1, h2]
  rw [if_pos h3]

/-- C7 witness: the freshly constructed `D = 2` tree has accumulated weight 0,
so building it yields the uniform state and a pdf of 1. -/
theorem build_degenerate_sets_uniform_witness :
    (initialTree 2).build idEnv = some (initialTree 2).setUniform ∧
    (initialTree 2).setUniform.pdf [1 / 3, 1 / 3] = some 1 := by
  have h := build_degenerate_sets_uniform idEnv (initialTree 2)
    [⟨[0, 0, 0, 0], 1, 0, -1⟩] ⟨[0, 0, 0, 0], 1, 0, -1⟩ (by decide) (by decide)
    (by decide)
  exact ⟨h.1, h.2.2.2.2.2.2 [1 / 3, 1 / 3]⟩

/-- Reading back a written child-index array. -/
theorem readNats_map_append (cs : List ℕ) (rest : List Tok) :
    readNats cs.length (cs.map Tok.nat ++ rest) = some (cs, rest) := by
  induction cs with
  | nil => rfl
  | cons c cs ih =>
    simp only [List.map_cons, List.length_cons, List.cons_append, readNats, List.append_eq, ih]
    rfl

/-- Reading back a written node. -/
theorem readNode_writeNode (a : ℕ) (n : TreeNode) (rest : List Tok)
    (h : n.children.length = a) :
    readNode a (n.writeNode ++ rest) = some (n, rest) := by
  subst h
  rw [TreeNode.writeNode]
  rw [List.cons_append, List.cons_append, List.cons_append]
  rw [readNode]
  rw [readNats_map_append]
  rfl

/-- Reading back a written pool. -/
theorem readNodes_writeNodes (a : ℕ) (ns : List TreeNode) (rest : List Tok)
    (h : ∀ n ∈ ns, n.children.length = a) :
    readNodes a ns.length (ns.flatMap TreeNode.writeNode ++ rest) = some (ns, rest) := by
  induction ns with
  | nil => rfl
  | cons n ns ih =>
    have h1 : n.children.length = a := h n (by simp)
    simp only [List.flatMap_cons, List.length_cons, List.append_assoc, readNodes]
    rw [readNode_writeNode a n _ h1]
    simp only [Option.some_bind]
    rw [ih (fun m hm => h m (by simp [hm]))]
    rfl

/-- C8.  Serialization round trip: writing a tree `t` (node count, then each
node's density, value, weight and children in pool order), reading that
stream into any tree of the same instantiation, and writing the result
reproduces the first stream exactly (and the read consumes the whole
stream, yielding `t`'s pool). -/
theorem write_read_write_roundtrip (t tdst : BTreeDistribution)
    (hdim : tdst.arity = t.arity)
    (h : ∀ n ∈ t.nodes, n.children.length = t.arity) :
    tdst.readTree t.writeTree = some ({ tdst with nodes := t.nodes }, []) ∧
    ({ tdst with nodes := t.nodes } : BTreeDistribution).writeTree = t.writeTree := by
  constructor
  · simp only [BTreeDistribution.writeTree, BTreeDistribution.readTree, hdim]
    have h2 := readNodes_writeNodes t.arity t.nodes [] h
    rw [List.append_nil] at h2
    rw [h2]
    rfl
  · rfl

/-- C8 witness: the round trip on the three-node tree `bt1`, read into `bt1`
itself. -/
theorem write_read_write_roundtrip_witness :
    bt1.readTree bt1.writeTree = some ({ bt1 with nodes := bt1.nodes }, []) ∧
    ({ bt1 with nodes := bt1.nodes } : BTreeDistribution).writeTree = bt1.writeTree :=
  write_read_write_roundtrip bt1 bt1 rfl (by decide)

/-- A successful `indexAt` descent ends at a leaf of the pool. -/
theorem indexAtGo_leaf (nodes : List TreeNode) (fuel : ℕ) :
    ∀ i x d j dep, indexAtGo nodes fuel i x d = some (j, dep) →
      ∃ n, nodes[j]? = some n ∧ n.isLeaf = true := by
  induction fuel with
  | zero => intro i x d j dep h; exact absurd h (by simp [indexAtGo])
  | succ fuel ih =>
    intro i x d j dep h
    rw [indexAtGo] at h
    cases hn : nodes[i]? with
    | none => simp [hn] at h
    | some n =>
      simp only [hn] at h
      by_cases hl : n.isLeaf = true
      · simp only [if_pos hl] at h
        have h2 := Option.some.inj h
        cases h2
        exact ⟨n, hn, hl⟩
      · simp only [if_neg hl] at h
        cases hc : n.children[locChildIndex x]? with
        | none => simp [hc] at h
        | some ni =>
          simp only [hc] at h
          exact ih ni (locRemap x) (d + 1) j dep h

/-- A successful `indexAt` descent stays inside the pool. -/
theorem indexAtGo_lt (nodes : List TreeNode) (fuel : ℕ) :
    ∀ i x d j dep, indexAtGo nodes fuel i x d = some (j, dep) → j < nodes.length := by
  intro i x d j dep h
  obtain ⟨n, hn, _⟩ := indexAtGo_leaf nodes fuel i x d j dep h
  exact (List.getElem?_eq_some.mp hn).1

/-- C10.  With filtering disabled, `splat(x, value, weight)` modifies exactly
the leaf containing `x`: its weight grows by `weight`, its value by
`value · weight`, its density by `target(value) · weight` (squared target in
second-moment mode), its children stay untouched, and every other node, the
node count and the configuration are unchanged. -/
theorem splat_unfiltered_frame (env : Env) (t : BTreeDistribution) (x : Vec)
    (v w : ℚ) (i dep : ℕ)
    (hf : t.doFiltering = false) (hi : t.indexAt x = some (i, dep)) :
    ∃ t', t.splat env x v w = some t' ∧
      (t.nodes.getD i default).isLeaf = true ∧
      t'.nodes.length = t.nodes.length ∧
      (∀ j, j ≠ i → t'.nodes[j]? = t.nodes[j]?) ∧
      (t'.nodes.getD i default).weight = (t.nodes.getD i default).weight + w ∧
      (t'.nodes.getD i default).value = (t.nodes.getD i default).value + v * w ∧
      (t'.nodes.getD i default).density = (t.nodes.getD i default).density +
        (if t.secondMoment then env.tgt v * env.tgt v else env.tgt v) * w ∧
      (t'.nodes.getD i default).children = (t.nodes.getD i default).children ∧
      t'.dim = t.dim ∧ t'.splitThreshold = t.splitThreshold ∧
      t'.leafReweighting = t.leafReweighting ∧ t'.doFiltering = t.doFiltering ∧
      t'.secondMoment = t.secondMoment := by
  obtain ⟨n, hn, hl⟩ := indexAtGo_leaf t.nodes (t.nodes.length + 1) 0 x 0 i dep hi
  have hlt : i < t.nodes.length := (List.getElem?_eq_some.mp hn).1
  have hgetD : t.nodes.getD i default = n := by
    simp [List.getD_eq_getElem?_getD, hn]
  refine ⟨{ t with nodes := t.nodes.set i ((t.nodes.getD i default).splatNode env v w t.secondMoment) }, ?_, ?_, ?_, ?_, ?_, ?_, ?_, ?_, rfl, rfl, rfl, rfl, rfl⟩
  · simp only [BTreeDistribution.splat, hf, hi]
    rfl
  · rw [hgetD]; exact hl
  · simp [List.length_set]
  · intro j hj
    simp [List.getElem?_set_ne (fun hh => hj hh.symm)]
  · simp [List.getD_eq_getElem?_getD, List.getElem?_set_eq_of_lt _ hlt, hgetD,
      TreeNode.splatNode]
  · simp [List.getD_eq_getElem?_getD, List.getElem?_set_eq_of_lt _ hlt, hgetD,
      TreeNode.splatNode]
  · simp [List.getD_eq_getElem?_getD, List.getElem?_set_eq_of_lt _ hlt, hgetD,
      TreeNode.splatNode]
  · simp [List.getD_eq_getElem?_getD, List.getElem?_set_eq_of_lt _ hlt, hgetD,
      TreeNode.splatNode]

/-- C10 witness: the unfiltered splat on `btOff` at `x = [1/4]` (leaf index 1,
depth 1) with value 1 and weight 1. -/
theorem splat_unfiltered_frame_witness :
    ∃ t', btOff.splat idEnv [1 / 4] 1 1 = some t' ∧
      (btOff.nodes.getD 1 default).isLeaf = true ∧
      t'.nodes.length = btOff.nodes.length ∧
      (∀ j, j ≠ 1 → t'.nodes[j]? = btOff.nodes[j]?) ∧
      (t'.nodes.getD 1 default).weight = (btOff.nodes.getD 1 default).weight + 1 ∧
      (t'.nodes.getD 1 default).value = (btOff.nodes.getD 1 default).value + 1 * 1 ∧
      (t'.nodes.getD 1 default).density = (btOff.nodes.getD 1 default).density +
        (if btOff.secondMoment then idEnv.tgt 1 * idEnv.tgt 1 else idEnv.tgt 1) * 1 ∧
      (t'.nodes.getD 1 default).children = (btOff.nodes.getD 1 default).children ∧
      t'.dim = btOff.dim ∧ t'.splitThreshold = btOff.splitThreshold ∧
      t'.leafReweighting = btOff.leafReweighting ∧ t'.doFiltering = btOff.doFiltering ∧
      t'.secondMoment = btOff.secondMoment :=
  splat_unfiltered_frame idEnv btOff [1 / 4] 1 1 1 1 (by decide) (by decide)

theorem getD_append_lt {α : Type} {ns ms : List α} {j : ℕ} (d : α) (h : j < ns.length) :
    (ns ++ ms).getD j d = ns.getD j d := by
  simp [List.getD_eq_getElem?_getD, List.getElem?_append_left h]

theorem getD_append_ge {α : Type} {ns ms : List α} {j : ℕ} (d : α) (h : ns.length ≤ j) :
    (ns ++ ms).getD j d = ms.getD (j - ns.length) d := by
  simp [List.getD_eq_getElem?_getD, List.getElem?_append_right h]

theorem getD_set_ne {α : Type} {ns : List α} {p j : ℕ} (d : α) (h : p ≠ j) (X : α) :
    (ns.set p X).getD j d = ns.getD j d := by
  simp [List.getD_eq_getElem?_getD, List.getElem?_set_ne h]

theorem getD_set_self {α : Type} {ns : List α} {p : ℕ} (d : α) (h : p < ns.length) (X : α) :
    (ns.set p X).getD p d = X := by
  simp [List.getD_eq_getElem?_getD, List.getElem?_set_eq_of_lt X h]

theorem getD_mem {ns : List TreeNode} {i : ℕ} (h : i < ns.length) :
    ns.getD i default ∈ ns := by
  rw [List.getD_eq_getElem ns default h]
  exact List.getElem_mem h

theorem set_append_ge {α : Type} {ns ms : List α} {p : ℕ} (h : ns.length ≤ p) (X : α) :
    (ns ++ ms).set p X = ns ++ ms.set (p - ns.length) X := by
  rw [List.set_append]
  simp [Nat.not_lt.2 h]

theorem childSum_congr {ns ms : List TreeNode} (cs : List ℕ)
    (h : ∀ c ∈ cs, ms.getD c default = ns.getD c default) :
    childSum ms cs = childSum ns cs := by
  unfold childSum
  congr 1
  exact List.map_congr_left fun c hc => by rw [h c hc]

theorem childSum_append (ns : List TreeNode) (cs : List ℕ) (p : ℕ) :
    childSum ns (cs ++ [p]) = childSum ns cs + (ns.getD p default).density := by
  simp [childSum]

theorem childSum_nonneg {ns : List TreeNode} (cs : List ℕ)
    (h : ∀ c ∈ cs, 0 ≤ (ns.getD c default).density) :
    0 ≤ childSum ns cs := by
  unfold childSum
  apply List.sum_nonneg
  intro q hq
  obtain ⟨c, hc, rfl⟩ := List.mem_map.mp hq
  exact h c hc

theorem take_set_succ {cs : List ℕ} {k : ℕ} (h : k < cs.length) (p : ℕ) :
    (cs.set k p).take (k + 1) = cs.take k ++ [p] := by
  induction cs generalizing k with
  | nil => simp at h
  | cons c cs ih =>
    cases k with
    | zero => simp
    | succ k =>
      simp only [List.set_cons_succ, List.take_succ_cons, List.cons_append]
      rw [ih (by simpa using h)]

theorem mem_take_bounds {cs : List ℕ} {k : ℕ} {e : ℕ} (he : e ∈ cs.take k)
    (P : ℕ → Prop) (h : ∀ s, s < k → s < cs.length → P (cs.getD s 0)) : P e := by
  obtain ⟨s, hs, hse⟩ := List.mem_iff_getElem.mp he
  have hs1 : s < k := by
    have := hs
    simp [List.length_take] at this
    omega
  have hs2 : s < cs.length := by
    have := hs
    simp [List.length_take] at this
    omega
  have : (cs.take k)[s] = cs[s] := List.getElem_take ..
  rw [this] at hse
  have : cs.getD s 0 = e := by
    rw [List.getD_eq_getElem cs 0 hs2]
    exact hse
  exact this ▸ h s hs1 hs2

theorem goodRange_empty (a dc : ℕ) (ns : List TreeNode) (lo : ℕ) :
    GoodRange a dc ns lo lo := by
  intro j h1 h2
  omega

theorem goodRange_append {a dc : ℕ} {ns ms : List TreeNode} {lo hi : ℕ}
    (hhi : hi ≤ ns.length) (h : GoodRange a dc ns lo hi) :
    GoodRange a dc (ns ++ ms) lo hi := by
  intro j h1 h2
  have hj : j < ns.length := by omega
  rw [getD_append_lt default hj]
  obtain ⟨g1, g2, g3, g4⟩ := h j h1 h2
  refine ⟨g1, g2, g3, fun hl => ?_⟩
  obtain ⟨g5, g6⟩ := g4 hl
  refine ⟨g5, ?_⟩
  rw [g6]
  exact (childSum_congr _ fun c hc => getD_append_lt default (by have := g5 c hc; omega)).symm

theorem goodRange_set_below {a dc : ℕ} {ns : List TreeNode} {lo hi p : ℕ} (X : TreeNode)
    (hp : p < lo) (h : GoodRange a dc ns lo hi) :
    GoodRange a dc (ns.set p X) lo hi := by
  intro j h1 h2
  rw [getD_set_ne default (by omega) X]
  obtain ⟨g1, g2, g3, g4⟩ := h j h1 h2
  refine ⟨g1, g2, g3, fun hl => ?_⟩
  obtain ⟨g5, g6⟩ := g4 hl
  refine ⟨g5, ?_⟩
  rw [g6]
  exact (childSum_congr _ fun c hc => getD_set_ne default (by have := g5 c hc; omega) X).symm

theorem goodRange_union {a dc : ℕ} {ns : List TreeNode} {lo mid hi : ℕ}
    (h1 : GoodRange a dc ns lo mid) (h2 : GoodRange a dc ns mid hi)
    (hmh : mid ≤ hi) :
    GoodRange a dc ns lo hi := by
  intro j hj1 hj2
  by_cases hj : j < mid
  · obtain ⟨g1, g2, g3, g4⟩ := h1 j hj1 hj
    refine ⟨g1, g2, g3, fun hl => ?_⟩
    obtain ⟨g5, g6⟩ := g4 hl
    exact ⟨fun c hc => ⟨(g5 c hc).1, by have := (g5 c hc).2; omega⟩, g6⟩
  · exact h2 j (by omega) hj2

theorem goodRange_mono_lo {a dc : ℕ} {ns : List TreeNode} {lo lo' hi : ℕ}
    (h : GoodRange a dc ns lo hi) (hlo : lo ≤ lo') :
    GoodRange a dc ns lo' hi := fun j h1 h2 => h j (by omega) h2

theorem buildKids_spec (a dc : ℕ) (lrw : Bool) (node : TreeNode)
    (rec : ℕ → List TreeNode → Option (List TreeNode))
    (hrec : ∀ c accc, c ∈ node.children →
      ∃ blk, rec c accc = some (accc ++ blk) ∧ 0 < blk.length ∧
        ((lrw = true ∧ ((accc ++ blk).getD accc.length default).weight = -1) ∨
         (0 ≤ ((accc ++ blk).getD accc.length default).weight ∧
          GoodRange a dc (accc ++ blk) accc.length (accc.length + blk.length))))
    (acc : List TreeNode) (parentAbs : ℕ) (hpar : parentAbs = acc.length) :
    ∀ (cs : List ℕ) (k : ℕ) (accK : List TreeNode) (vc : ℕ) (ds vs ws : ℚ)
      (cl : List ℕ),
      (∀ c ∈ cs, c ∈ node.children) →
      k + cs.length = node.children.length →
      (∃ bk, accK = acc ++ bk ∧ 0 < bk.length) →
      accK.getD parentAbs default = { node with children := cl } →
      cl.length = node.children.length →
      (∀ s, s < k → parentAbs < cl.getD s 0 ∧ cl.getD s 0 < accK.length) →
      0 ≤ ds → 0 ≤ ws →
      ((vc = k ∧ GoodRange a dc accK (parentAbs + 1) accK.length ∧
        childSum accK (cl.take k) = ds) ∨
       (lrw = true ∧ vc < k)) →
      ∃ accF clF vcF dsF vsF wsF,
        buildKids rec parentAbs (List.enumFrom k cs) (accK, vc, ds, vs, ws) =
          some (accF, vcF, dsF, vsF, wsF) ∧
        (∃ bk, accF = acc ++ bk ∧ 0 < bk.length) ∧
        accK.length ≤ accF.length ∧
        accF.getD parentAbs default = { node with children := clF } ∧
        clF.length = node.children.length ∧
        (∀ s, s < node.children.length →
          parentAbs < clF.getD s 0 ∧ clF.getD s 0 < accF.length) ∧
        0 ≤ dsF ∧ 0 ≤ wsF ∧
        ((vcF = node.children.length ∧
          GoodRange a dc accF (parentAbs + 1) accF.length ∧
          childSum accF (clF.take node.children.length) = dsF) ∨
         (lrw = true ∧ vcF < node.children.length)) := by
  intro cs
  induction cs with
  | nil =>
    intro k accK vc ds vs ws cl hsub hk hbk hpf hcl hslots hds hws hbr
    simp only [List.length_nil, Nat.add_zero] at hk
    subst hk
    exact ⟨accK, cl, vc, ds, vs, ws, rfl, hbk, le_refl _, hpf, hcl, hslots, hds, hws, hbr⟩
  | cons c cs ih =>
    intro k accK vc ds vs ws cl hsub hk hbk hpf hcl hslots hds hws hbr
    obtain ⟨bk, rfl, hbk0⟩ := hbk
    have hparlt : parentAbs < (acc ++ bk).length := by
      simp only [List.length_append, hpar]
      omega
    have hcmem : c ∈ node.children := hsub c (by simp)
    obtain ⟨blk, hblk, hblk0, hdisj⟩ := hrec c (acc ++ bk) hcmem
    have hklt : k < cl.length := by
      simp only [List.length_cons] at hk
      omega
    have hA1len : ((acc ++ bk) ++ blk).length = (acc ++ bk).length + blk.length := by
      rw [List.length_append]
    have hparlt1 : parentAbs < ((acc ++ bk) ++ blk).length := by omega
    have hparne : parentAbs ≠ (acc ++ bk).length := by omega
    -- the parent node inside the extended pool
    have hpn : ((acc ++ bk) ++ blk).getD parentAbs default = { node with children := cl } := by
      rw [getD_append_lt default hparlt]
      exact hpf
    -- shape facts about the updated pool
    have hA2 : ∀ P2 : TreeNode,
        ((acc ++ bk) ++ blk).set parentAbs P2 = acc ++ ((bk ++ blk).set 0 P2) := by
      intro P2
      rw [List.append_assoc]
      rw [set_append_ge (by omega) P2]
      have hz : parentAbs - acc.length = 0 := by omega
      rw [hz]
    have hchpos : ∀ P2 : TreeNode,
        (((acc ++ bk) ++ blk).set parentAbs P2).getD (acc ++ bk).length default =
          ((acc ++ bk) ++ blk).getD (acc ++ bk).length default := by
      intro P2
      exact getD_set_ne default hparne P2
    -- data about the child root
    have hchlt : (acc ++ bk).length < ((acc ++ bk) ++ blk).length := by omega
    rw [List.enumFrom, buildKids]
    simp only [hblk, hpn]
    set ch := (((acc ++ bk) ++ blk).set parentAbs
      { node with children := cl.set k ((acc ++ bk)).length }).getD ((acc ++ bk)).length default with hchdef
    have hcheq : ch = ((acc ++ bk) ++ blk).getD (acc ++ bk).length default := hchpos _
    -- facts reusable in both if-branches
    have hA2form : ∃ bk2, ((acc ++ bk) ++ blk).set parentAbs
        { node with children := cl.set k (acc ++ bk).length } = acc ++ bk2 ∧ 0 < bk2.length := by
      refine ⟨(bk ++ blk).set 0 { node with children := cl.set k (acc ++ bk).length }, hA2 _, ?_⟩
      simp only [List.length_set, List.length_append]
      omega
    have hA2len : (((acc ++ bk) ++ blk).set parentAbs
        { node with children := cl.set k (acc ++ bk).length }).length =
          (acc ++ bk).length + blk.length := by
      rw [List.length_set, List.length_append]
    have hpf2 : (((acc ++ bk) ++ blk).set parentAbs
        { node with children := cl.set k (acc ++ bk).length }).getD parentAbs default =
          { node with children := cl.set k (acc ++ bk).length } := by
      exact getD_set_self default hparlt1 _
    have hcl2 : (cl.set k (acc ++ bk).length).length = node.children.length := by
      simp [hcl]
    have hslots2 : ∀ s, s < k + 1 →
        parentAbs < (cl.set k (acc ++ bk).length).getD s 0 ∧
        (cl.set k (acc ++ bk).length).getD s 0 <
          (((acc ++ bk) ++ blk).set parentAbs
            { node with children := cl.set k (acc ++ bk).length }).length := by
      intro s hs
      rw [hA2len]
      by_cases hsk : s = k
      · subst hsk
        rw [List.getD_eq_getElem?_getD, List.getElem?_set_eq_of_lt _ hklt]
        simp only [Option.getD_some]
        omega
      · rw [List.getD_eq_getElem?_getD, List.getElem?_set_ne (fun hh => hsk hh.symm),
          ← List.getD_eq_getElem?_getD]
        have := hslots s (by omega)
        omega
    have hsub2 : ∀ e ∈ cs, e ∈ node.children := fun e he => hsub e (by simp [he])
    have hk2 : (k + 1) + cs.length = node.children.length := by
      simp only [List.length_cons] at hk
      omega
    by_cases h0 : 0 ≤ ch.weight
    · rw [if_pos h0]
      -- the child block is valid: extract its goodness
      have hright : 0 ≤ (((acc ++ bk) ++ blk).getD (acc ++ bk).length default).weight ∧
          GoodRange a dc ((acc ++ bk) ++ blk) (acc ++ bk).length
            ((acc ++ bk).length + blk.length) := by
        rcases hdisj with ⟨_, hw⟩ | hr
        · rw [hcheq] at h0
          rw [hw] at h0
          norm_num at h0
        · exact hr
      have hchd : 0 ≤ ch.density := by
        rw [hcheq]
        exact (hright.2 (acc ++ bk).length (le_refl _) (by omega)).2.1
      have hbr2 : (vc + 1 = k + 1 ∧
          GoodRange a dc (((acc ++ bk) ++ blk).set parentAbs
            { node with children := cl.set k (acc ++ bk).length }) (parentAbs + 1)
            (((acc ++ bk) ++ blk).set parentAbs
              { node with children := cl.set k (acc ++ bk).length }).length ∧
          childSum (((acc ++ bk) ++ blk).set parentAbs
            { node with children := cl.set k (acc ++ bk).length })
            ((cl.set k (acc ++ bk).length).take (k + 1)) = ds + ch.density) ∨
          (lrw = true ∧ vc + 1 < k + 1) := by
        rcases hbr with ⟨hvck, hGR, hCS⟩ | ⟨hlrw, hvck⟩
        · left
          refine ⟨by omega, ?_, ?_⟩
          · rw [hA2len]
            apply @goodRange_union _ _ _ _ ((acc ++ bk).length) _
            · exact goodRange_set_below _ (by omega) (goodRange_append (le_refl _) hGR)
            · exact goodRange_set_below _ (by omega) hright.2
            · omega
          · rw [take_set_succ hklt]
            rw [childSum_append]
            have hcs1 : childSum (((acc ++ bk) ++ blk).set parentAbs
                { node with children := cl.set k (acc ++ bk).length }) (cl.take k) =
                childSum (acc ++ bk) (cl.take k) := by
              apply childSum_congr
              intro e he
              have hbnd : parentAbs < e ∧ e < (acc ++ bk).length := by
                apply mem_take_bounds he
                intro s hs1 hs2
                exact hslots s hs1
              rw [getD_set_ne default (by omega) _]
              exact getD_append_lt default hbnd.2
            rw [hcs1, hCS]
        · right
          exact ⟨hlrw, by omega⟩
      obtain ⟨accF, clF, vcF, dsF, vsF, wsF, heq, hfin⟩ :=
        ih (k + 1) _ (vc + 1) (ds + ch.density) (vs + ch.value) (ws + ch.weight)
          (cl.set k (acc ++ bk).length) hsub2 hk2 hA2form hpf2 hcl2 hslots2
          (by positivity) (by positivity) hbr2
      refine ⟨accF, clF, vcF, dsF, vsF, wsF, heq, hfin.1, ?_, hfin.2.2.1, hfin.2.2.2.1,
        hfin.2.2.2.2.1, hfin.2.2.2.2.2.1, hfin.2.2.2.2.2.2.1, hfin.2.2.2.2.2.2.2⟩
      calc (acc ++ bk).length ≤ (acc ++ bk).length + blk.length := by omega
        _ = (((acc ++ bk) ++ blk).set parentAbs
            { node with children := cl.set k (acc ++ bk).length }).length := hA2len.symm
        _ ≤ accF.length := hfin.2.1
    · rw [if_neg h0]
      have hlrw : lrw = true := by
        rcases hdisj with ⟨hl, _⟩ | ⟨hw, _⟩
        · exact hl
        · rw [← hcheq] at hw
          exact absurd hw h0
      have hbr2 : (vc = k + 1 ∧
          GoodRange a dc (((acc ++ bk) ++ blk).set parentAbs
            { node with children := cl.set k (acc ++ bk).length }) (parentAbs + 1)
            (((acc ++ bk) ++ blk).set parentAbs
              { node with children := cl.set k (acc ++ bk).length }).length ∧
          childSum (((acc ++ bk) ++ blk).set parentAbs
            { node with children := cl.set k (acc ++ bk).length })
            ((cl.set k (acc ++ bk).length).take (k + 1)) = ds) ∨
          (lrw = true ∧ vc < k + 1) := by
        right
        refine ⟨hlrw, ?_⟩
        rcases hbr with ⟨hvck, _, _⟩ | ⟨_, hvck⟩ <;> omega
      obtain ⟨accF, clF, vcF, dsF, vsF, wsF, heq, hfin⟩ :=
        ih (k + 1) _ vc ds vs ws (cl.set k (acc ++ bk).length) hsub2 hk2 hA2form hpf2
          hcl2 hslots2 hds hws hbr2
      refine ⟨accF, clF, vcF, dsF, vsF, wsF, heq, hfin.1, ?_, hfin.2.2.1, hfin.2.2.2.1,
        hfin.2.2.2.2.1, hfin.2.2.2.2.2.1, hfin.2.2.2.2.2.2.1, hfin.2.2.2.2.2.2.2⟩
      calc (acc ++ bk).length ≤ (acc ++ bk).length + blk.length := by omega
        _ = (((acc ++ bk) ++ blk).set parentAbs
            { node with children := cl.set k (acc ++ bk).length }).length := hA2len.symm
        _ ≤ accF.length := hfin.2.1

theorem take_one_nonempty {α : Type} {l : List α} (d : α) (h : 0 < l.length) :
    l.take 1 = [l.getD 0 d] := by
  cases l with
  | nil => simp at h
  | cons x xs => simp

theorem mem_list_bounds {cs : List ℕ} {e : ℕ} (he : e ∈ cs)
    (P : ℕ → Prop) (h : ∀ s, s < cs.length → P (cs.getD s 0)) : P e := by
  apply @mem_take_bounds cs cs.length e _ P fun s hs1 hs2 => h s hs2
  rw [List.take_length]
  exact he

theorem buildGo_block (env : Env) (t : BTreeDistribution)
    (hS : StructOK t.arity t.nodes) (hA : AccumOK t.nodes)
    (hsq : ∀ q, 0 ≤ q → 0 ≤ env.sq q) :
    ∀ (fuel : ℕ) (i : ℕ) (scale : ℚ) (acc : List TreeNode),
      i < t.nodes.length →
      t.nodes.length - i ≤ fuel →
      0 ≤ scale →
      ∃ blk, buildGo env t fuel i scale acc = some (acc ++ blk) ∧ 0 < blk.length ∧
        ((t.leafReweighting = true ∧ ((acc ++ blk).getD acc.length default).weight = -1) ∨
         (0 ≤ ((acc ++ blk).getD acc.length default).weight ∧
          GoodRange t.arity (divisorC t) (acc ++ blk) acc.length
            (acc.length + blk.length))) := by
  intro fuel
  induction fuel with
  | zero => intro i scale acc hi hfuel hscale; omega
  | succ fuel ih =>
    intro i scale acc hi hfuel hscale
    have hnode : t.nodes[i]? = some (t.nodes.getD i default) := by
      rw [List.getElem?_eq_getElem hi, List.getD_eq_getElem t.nodes default hi]
    obtain ⟨hlen, hbound⟩ := hS i hi
    obtain ⟨hdens, hwt⟩ := hA _ (getD_mem hi)
    rw [buildGo]
    simp only [hnode]
    by_cases hleaf : (t.nodes.getD i default).isLeaf = true
    · rw [if_pos hleaf]
      by_cases hsmall : t.leafReweighting = true ∧ (t.nodes.getD i default).weight < 1 / 1000
      · rw [if_pos hsmall]
        refine ⟨[{ t.nodes.getD i default with weight := -1 }], rfl, by simp, Or.inl ⟨hsmall.1, ?_⟩⟩
        rw [getD_append_ge default (le_refl _)]
        simp
      · rw [if_neg hsmall]
        set w := if t.leafReweighting = true then 1 / (t.nodes.getD i default).weight else scale with hw
        have hwpos : 0 ≤ w := by
          rw [hw]
          split
          · positivity
          · exact hscale
        set d1 := (t.nodes.getD i default).density * w with hd1
        set d2 := if t.secondMoment = true then env.sq d1 else d1 with hd2
        have hd2pos : 0 ≤ d2 := by
          have h1 : 0 ≤ d1 := by positivity
          rw [hd2]
          split
          · exact hsq _ h1
          · exact h1
        set X : TreeNode := ⟨(t.nodes.getD i default).markAsLeaf.children, d2, (t.nodes.getD i default).value * w, (t.nodes.getD i default).weight⟩ with hX
        refine ⟨[X], rfl, by simp, Or.inr ⟨?_, ?_⟩⟩
        · rw [getD_append_ge default (le_refl _)]
          simpa [hX] using hwt
        · intro j hj1 hj2
          simp only [List.length_append, List.length_cons, List.length_nil] at hj2
          have hj : j = acc.length := by omega
          subst hj
          rw [getD_append_ge default (le_refl _)]
          simp only [Nat.sub_self]
          have hXval : ([X].getD 0 default) = X := rfl
          rw [hXval]
          refine ⟨?_, hd2pos, hwt, ?_⟩
          · rw [hX]
            show (t.nodes.getD i default).markAsLeaf.children.length = t.arity
            simp only [TreeNode.markAsLeaf, List.length_set]
            exact hlen
          · intro hfalse
            have hXleaf : X.isLeaf = true := by
              have := markAsLeaf_isLeaf (t.nodes.getD i default)
              simpa [hX, TreeNode.isLeaf, TreeNode.markAsLeaf] using this
            rw [hXleaf] at hfalse
            exact absurd hfalse (by simp)
    · rw [if_neg hleaf]
      have hbnd := hbound (by simpa using hleaf)
      have hrec : ∀ c accc, c ∈ (t.nodes.getD i default).children →
          ∃ blk, buildGo env t fuel c (scale * (t.arity : ℚ)) accc = some (accc ++ blk) ∧
            0 < blk.length ∧
            ((t.leafReweighting = true ∧
              ((accc ++ blk).getD accc.length default).weight = -1) ∨
             (0 ≤ ((accc ++ blk).getD accc.length default).weight ∧
              GoodRange t.arity (divisorC t) (accc ++ blk) accc.length
                (accc.length + blk.length))) := by
        intro c accc hc
        exact ih c (scale * (t.arity : ℚ)) accc (hbnd c hc).2
          (by have := (hbnd c hc).1; omega) (by positivity)
      have henum : (t.nodes.getD i default).children.enum =
          List.enumFrom 0 (t.nodes.getD i default).children := rfl
      rw [henum]
      obtain ⟨accF, clF, vcF, dsF, vsF, wsF, heqF, hbkF, hlenF, hpfF, hclF, hslotsF,
          hdsF, hwsF, hbrF⟩ :=
        buildKids_spec t.arity (divisorC t) t.leafReweighting (t.nodes.getD i default)
          (fun c a => buildGo env t fuel c (scale * (t.arity : ℚ)) a) hrec acc acc.length rfl
          (t.nodes.getD i default).children 0 (acc ++ [t.nodes.getD i default]) 0 0 0 0
          (t.nodes.getD i default).children (fun c hc => hc) (by simp)
          ⟨[t.nodes.getD i default], rfl, by simp⟩
          (by rw [getD_append_ge default (le_refl _)]; simp)
          rfl (fun s hs => by omega) (le_refl _) (le_refl _)
          (Or.inl ⟨rfl, by simpa using goodRange_empty _ _ _ _, by simp [childSum]⟩)
      rw [heqF]
      obtain ⟨bkF, hbkFeq, hbkF0⟩ := hbkF
      subst hbkFeq
      have hacclt : acc.length < (acc ++ bkF).length := by
        simp only [List.length_append]
        omega
      simp only []
      set vcn := if t.leafReweighting = false then 4 else vcF with hvcn
      by_cases hvc0 : vcn = 0
      · rw [if_pos hvc0]
        have hlrw : t.leafReweighting = true := by
          cases hb : t.leafReweighting
          · rw [hvcn] at hvc0
            simp [hb] at hvc0
          · rfl
        refine ⟨bkF.set 0 { (acc ++ bkF).getD acc.length default with weight := -1 }, ?_, by simpa using hbkF0, Or.inl ⟨hlrw, ?_⟩⟩
        · rw [set_append_ge (le_refl _) _, Nat.sub_self]
        · rw [getD_append_ge default (le_refl _), Nat.sub_self]
          rw [getD_set_self default (by simpa using hbkF0) _]
      · rw [if_neg hvc0]
        have hvca : t.leafReweighting = true → vcn = vcF := by
          intro hb
          rw [hvcn, hb]
          simp
        have hvc4 : t.leafReweighting = false → vcn = 4 := by
          intro hb
          rw [hvcn, hb]
          simp
        set P3 : TreeNode := ⟨((acc ++ bkF).getD acc.length default).children, dsF / (vcn : ℚ), vsF / (vcn : ℚ), wsF⟩ with hP3
        have hP3clF : P3 = ⟨clF, dsF / (vcn : ℚ), vsF / (vcn : ℚ), wsF⟩ := by
          rw [hP3, hpfF]
        have hacc3 : (acc ++ bkF).set acc.length P3 = acc ++ bkF.set 0 P3 := by
          rw [set_append_ge (le_refl _) _, Nat.sub_self]
        have hacc3getD : ((acc ++ bkF).set acc.length P3).getD acc.length default = P3 :=
          getD_set_self default hacclt _
        have hdiv0 : (0:ℚ) ≤ dsF / (vcn : ℚ) := by positivity
        have hchlen : (t.nodes.getD i default).children.length = t.arity := hlen
        by_cases htr : vcn < t.arity
        · rw [if_pos htr]
          have htake : (((acc ++ bkF).set acc.length P3).take (acc.length + 1)) = acc ++ [P3] := by
            rw [hacc3]
            rw [List.take_append_eq_append_take]
            rw [List.take_of_length_le (by omega)]
            congr 1
            have h1 : acc.length + 1 - acc.length = 1 := by omega
            rw [h1]
            rw [take_one_nonempty default (by simpa using hbkF0)]
            rw [getD_set_self default (by simpa using hbkF0) _]
          rw [htake, hacc3getD]
          have hres : (acc ++ [P3]).set acc.length P3.markAsLeaf = acc ++ [P3.markAsLeaf] := by
            rw [set_append_ge (le_refl _) _, Nat.sub_self]
            rfl
          rw [hres]
          refine ⟨[P3.markAsLeaf], rfl, by simp, Or.inr ⟨?_, ?_⟩⟩
          · rw [getD_append_ge default (le_refl _), Nat.sub_self]
            show P3.markAsLeaf.weight ≥ 0
            simpa [TreeNode.markAsLeaf, hP3] using hwsF
          · intro j hj1 hj2
            simp only [List.length_append, List.length_cons, List.length_nil] at hj2
            have hj : j = acc.length := by omega
            subst hj
            rw [getD_append_ge default (le_refl _), Nat.sub_self]
            show ([P3.markAsLeaf].getD 0 default).children.length = t.arity ∧ _
            have hone : [P3.markAsLeaf].getD 0 default = P3.markAsLeaf := rfl
            rw [hone]
            refine ⟨?_, ?_, ?_, ?_⟩
            · show P3.markAsLeaf.children.length = t.arity
              rw [hP3clF]
              show (clF.set 0 0).length = t.arity
              rw [List.length_set, hclF, hchlen]
            · show 0 ≤ P3.markAsLeaf.density
              rw [hP3clF]
              exact hdiv0
            · show 0 ≤ P3.markAsLeaf.weight
              rw [hP3clF]
              exact hwsF
            · intro hfalse
              have hml : P3.markAsLeaf.isLeaf = true := markAsLeaf_isLeaf P3
              rw [hml] at hfalse
              exact absurd hfalse (by simp)
        · rw [if_neg htr]
          -- all children must be valid here
          have hA : vcF = (t.nodes.getD i default).children.length ∧
              GoodRange t.arity (divisorC t) (acc ++ bkF) (acc.length + 1) (acc ++ bkF).length ∧
              childSum (acc ++ bkF) (clF.take (t.nodes.getD i default).children.length) = dsF := by
            rcases hbrF with h | ⟨hlrw, hlt⟩
            · exact h
            · exfalso
              have := hvca hlrw
              omega
          have hdc : (divisorC t : ℚ) = (vcn : ℚ) := by
            unfold divisorC
            cases hb : t.leafReweighting
            · rw [hvc4 hb]
              simp
            · rw [hvca hb]
              simp [hb]
              rw [hA.1, hchlen]
          have hvcnq : (vcn : ℚ) ≠ 0 := by
            exact_mod_cast hvc0
          refine ⟨bkF.set 0 P3, hacc3 ▸ rfl, by simpa using hbkF0, Or.inr ⟨?_, ?_⟩⟩
          · rw [← hacc3]
            rw [hacc3getD]
            exact hwsF
          · have hlenacc3 : acc.length + (bkF.set 0 P3).length = ((acc ++ bkF).set acc.length P3).length := by
              simp
            rw [← hacc3]
            rw [show acc.length + (bkF.set 0 P3).length = (acc ++ bkF).length from by simp]
            intro j hj1 hj2
            by_cases hj : j = acc.length
            · subst hj
              rw [hacc3getD]
              refine ⟨?_, ?_, ?_, ?_⟩
              · rw [hP3clF]
                show clF.length = t.arity
                rw [hclF, hchlen]
              · rw [hP3clF]
                exact hdiv0
              · rw [hP3clF]
                exact hwsF
              · intro hnl
                have hPc : P3.children = clF := by rw [hP3clF]
                have hPd : P3.density = dsF / (vcn : ℚ) := by rw [hP3clF]
                constructor
                · intro c hc
                  rw [hPc] at hc
                  have hcb : acc.length < c ∧ c < (acc ++ bkF).length := by
                    apply mem_list_bounds hc
                    intro s hs
                    exact hslotsF s (by rw [← hclF]; exact hs)
                  exact hcb
                · rw [hPd, hPc]
                  rw [hdc]
                  rw [mul_div_cancel₀ _ hvcnq]
                  have hcongr : childSum ((acc ++ bkF).set acc.length P3) clF = childSum (acc ++ bkF) clF := by
                    apply childSum_congr
                    intro e he
                    have heb : acc.length < e ∧ e < (acc ++ bkF).length := by
                      apply mem_list_bounds he
                      intro s hs
                      exact hslotsF s (by rw [← hclF]; exact hs)
                    exact getD_set_ne default (by omega) _
                  rw [hcongr]
                  have htk : clF.take (t.nodes.getD i default).children.length = clF := by
                    rw [← hclF]
                    exact List.take_length clF
                  rw [← htk, hA.2.2]
            · have hGR2 := goodRange_set_below P3 (show acc.length < acc.length + 1 by omega) hA.2.1
              exact hGR2 j (by omega) hj2

theorem goodRange_setUniform (t : BTreeDistribution)
    (hS : StructOK t.arity t.nodes) (hne : 0 < t.nodes.length) :
    GoodRange t.arity (divisorC t) t.setUniform.nodes 0 t.setUniform.nodes.length := by
  intro j hj1 hj2
  rw [setUniform_nodes] at hj2 ⊢
  simp only [List.length_cons, List.length_nil] at hj2
  have hj : j = 0 := by omega
  subst hj
  rw [show ∀ (n : TreeNode) (l : List TreeNode), (n :: l).getD 0 default = n from fun n l => rfl]
  refine ⟨?_, by norm_num, by norm_num, ?_⟩
  · show (t.nodes.headD (defaultNode t.arity)).markAsLeaf.children.length = t.arity
    simp only [TreeNode.markAsLeaf, List.length_set]
    have hhead : t.nodes.headD (defaultNode t.arity) = t.nodes.getD 0 (defaultNode t.arity) := by
      cases t.nodes with
      | nil => rfl
      | cons n l => rfl
    rw [hhead]
    have h0 := (hS 0 hne).1
    rw [List.getD_eq_getElem t.nodes default hne] at h0
    rw [List.getD_eq_getElem t.nodes (defaultNode t.arity) hne]
    exact h0
  · intro hfalse
    have hl : ({ (t.nodes.headD (defaultNode t.arity)).markAsLeaf with density := 1, value := 0, weight := 0 } : TreeNode).isLeaf = true := by
      have := markAsLeaf_isLeaf (t.nodes.headD (defaultNode t.arity))
      simpa [TreeNode.isLeaf, TreeNode.markAsLeaf] using this
    rw [hl] at hfalse
    exact absurd hfalse (by simp)

theorem getD_map_density (ns : List TreeNode) (norm rw2 : ℚ) (lrw : Bool) (c : ℕ) :
    ((ns.map fun n : TreeNode => { n with density := n.density / norm, value := if lrw = false then n.value / rw2 else n.value }).getD c default).density = (ns.getD c default).density / norm := by
  by_cases h : c < ns.length
  · rw [List.getD_eq_getElem?_getD, List.getElem?_map, List.getElem?_eq_getElem h]
    rw [List.getD_eq_getElem?_getD, List.getElem?_eq_getElem h]
    rfl
  · rw [List.getD_eq_getElem?_getD, List.getElem?_map,
      List.getElem?_eq_none (by simpa using Nat.le_of_not_lt h),
      List.getD_eq_getElem?_getD, List.getElem?_eq_none (by simpa using Nat.le_of_not_lt h)]
    show (default : TreeNode).density = (default : TreeNode).density / norm
    show (0:ℚ) = 0 / norm
    rw [zero_div]

theorem childSum_map_div (ns : List TreeNode) (cs : List ℕ) (norm rw2 : ℚ) (lrw : Bool) :
    childSum (ns.map fun n : TreeNode => { n with density := n.density / norm, value := if lrw = false then n.value / rw2 else n.value }) cs = childSum ns cs / norm := by
  induction cs with
  | nil => simp [childSum]
  | cons c cs ih =>
    unfold childSum at ih ⊢
    simp only [List.map_cons, List.sum_cons]
    rw [ih, getD_map_density, add_div]

theorem build_good (env : Env) (t T : BTreeDistribution)
    (hS : StructOK t.arity t.nodes) (hA : AccumOK t.nodes)
    (hsq : ∀ q, 0 ≤ q → 0 ≤ env.sq q) (hne : 0 < t.nodes.length)
    (hb : t.build env = some T) :
    T.dim = t.dim ∧ T.leafReweighting = t.leafReweighting ∧
    T.splitThreshold = t.splitThreshold ∧ T.secondMoment = t.secondMoment ∧
    0 < T.nodes.length ∧
    GoodRange t.arity (divisorC t) T.nodes 0 T.nodes.length ∧
    (T.nodes.getD 0 default).density = 1 := by
  obtain ⟨blk, hblk, hblk0, hdisj⟩ :=
    buildGo_block env t hS hA hsq (t.nodes.length + 1) 0 1 [] hne (by omega) (by norm_num)
  rw [List.nil_append] at hblk hdisj
  simp only [List.length_nil, Nat.zero_add] at hdisj
  unfold BTreeDistribution.build at hb
  have hget0 : blk[0]? = some (blk.getD 0 default) := by
    rw [List.getElem?_eq_getElem hblk0, List.getD_eq_getElem blk default hblk0]
  simp only [hblk, hget0] at hb
  by_cases hdeg : (blk.getD 0 default).weight ≤ 0 ∨ (blk.getD 0 default).density = 0
  · rw [if_pos hdeg] at hb
    have hTeq : T = t.setUniform := by
      injection hb with h
      exact h.symm
    subst hTeq
    refine ⟨rfl, rfl, rfl, rfl, by rw [setUniform_nodes]; simp,
      goodRange_setUniform t hS hne, ?_⟩
    rw [setUniform_nodes]
    rfl
  · rw [if_neg hdeg] at hb
    push_neg at hdeg
    obtain ⟨hwpos, hdne⟩ := hdeg
    have hgood : 0 ≤ (blk.getD 0 default).weight ∧
        GoodRange t.arity (divisorC t) blk 0 blk.length := by
      rcases hdisj with ⟨_, hm1⟩ | h
      · rw [hm1] at hwpos
        norm_num at hwpos
      · exact h
    have hnorm0 : 0 ≤ (blk.getD 0 default).density := (hgood.2 0 (le_refl _) hblk0).2.1
    have hnormpos : 0 < (blk.getD 0 default).density := lt_of_le_of_ne hnorm0 (Ne.symm hdne)
    have hTeq : T = { t with nodes := blk.map fun n => { n with density := n.density / (blk.getD 0 default).density, value := if t.leafReweighting = false then n.value / (blk.getD 0 default).weight else n.value } } := by
      injection hb with h
      exact h.symm
    subst hTeq
    have hmapD : ∀ p, ((blk.map fun n => { n with density := n.density / (blk.getD 0 default).density, value := if t.leafReweighting = false then n.value / (blk.getD 0 default).weight else n.value }).getD p default) = (if p < blk.length then { blk.getD p default with density := (blk.getD p default).density / (blk.getD 0 default).density, value := if t.leafReweighting = false then (blk.getD p default).value / (blk.getD 0 default).weight else (blk.getD p default).value } else default) := by
      intro p
      by_cases hp : p < blk.length
      · rw [if_pos hp]
        rw [List.getD_eq_getElem?_getD, List.getElem?_map, List.getElem?_eq_getElem hp]
        rw [List.getD_eq_getElem blk default hp]
        rfl
      · rw [if_neg hp]
        rw [List.getD_eq_getElem?_getD, List.getElem?_map,
          List.getElem?_eq_none (by simpa using Nat.le_of_not_lt hp)]
        rfl
    refine ⟨rfl, rfl, rfl, rfl, by simpa using hblk0, ?_, ?_⟩
    · intro j hj1 hj2
      simp only [List.length_map] at hj2
      obtain ⟨g1, g2, g3, g4⟩ := hgood.2 j hj1 hj2
      rw [hmapD j, if_pos hj2]
      refine ⟨g1, by positivity, g3, ?_⟩
      intro hnl
      have hnl' : (blk.getD j default).isLeaf = false := by
        simpa [TreeNode.isLeaf] using hnl
      obtain ⟨g5, g6⟩ := g4 hnl'
      constructor
      · intro c hc
        exact ⟨(g5 c hc).1, by simpa using (g5 c hc).2⟩
      · show (divisorC t : ℚ) * ((blk.getD j default).density / (blk.getD 0 default).density) =
          childSum _ (blk.getD j default).children
        rw [childSum_map_div blk _ ((blk.getD 0 default).density)
          ((blk.getD 0 default).weight) t.leafReweighting]
        rw [mul_div_assoc']
        rw [g6]
    · rw [hmapD 0, if_pos hblk0]
      show (blk.getD 0 default).density / (blk.getD 0 default).density = 1
      exact div_self (ne_of_gt hnormpos)

theorem mapM_option_map {α β : Type} (f : α → Option β) (g : α → β) :
    ∀ (cs : List α), (∀ c ∈ cs, f c = some (g c)) → cs.mapM f = some (cs.map g) := by
  intro cs
  induction cs with
  | nil => intro h; rfl
  | cons c cs ih =>
    intro h
    rw [List.mapM_cons]
    rw [h c (by simp)]
    rw [ih (fun e he => h e (by simp [he]))]
    rfl

theorem sum_map_mul_right_list (cs : List ℕ) (f : ℕ → ℚ) (r : ℚ) :
    (cs.map fun c => f c * r).sum = (cs.map f).sum * r := by
  induction cs with
  | nil => simp
  | cons c cs ih => simp [ih, add_mul]

theorem leafMass_eq (a : ℕ) (ns : List TreeNode) (ha : 0 < a)
    (hG : GoodRange a a ns 0 ns.length) :
    ∀ fuel i vol, i < ns.length → ns.length - i ≤ fuel →
      leafMass ns a fuel i vol = some ((ns.getD i default).density * vol) := by
  intro fuel
  induction fuel with
  | zero => intro i vol hi hfuel; omega
  | succ fuel ih =>
    intro i vol hi hfuel
    have hnode : ns[i]? = some (ns.getD i default) := by
      rw [List.getElem?_eq_getElem hi, List.getD_eq_getElem ns default hi]
    rw [leafMass]
    simp only [hnode]
    by_cases hleaf : (ns.getD i default).isLeaf = true
    · rw [if_pos hleaf]
    · rw [if_neg hleaf]
      obtain ⟨g1, g2, g3, g4⟩ := hG i (by omega) hi
      obtain ⟨g5, g6⟩ := g4 (by simpa using hleaf)
      have hmapM : (ns.getD i default).children.mapM
          (fun c => leafMass ns a fuel c (vol / (a : ℚ))) =
          some ((ns.getD i default).children.map
            (fun c => (ns.getD c default).density * (vol / (a : ℚ)))) := by
        apply mapM_option_map
        intro c hc
        exact ih c (vol / (a : ℚ)) (g5 c hc).2 (by have := (g5 c hc).1; omega)
      rw [hmapM]
      rw [show ∀ (l : List ℚ), Option.map (fun l : List ℚ => l.sum) (some l) = some l.sum from fun l => rfl]
      congr 1
      have hsum : ((ns.getD i default).children.map
          (fun c => (ns.getD c default).density * (vol / (a : ℚ)))).sum =
          childSum ns (ns.getD i default).children * (vol / (a : ℚ)) := by
        rw [sum_map_mul_right_list]
        rfl
      rw [hsum, ← g6]
      have haq : (a : ℚ) ≠ 0 := by
        exact_mod_cast Nat.pos_iff_ne_zero.mp ha
      field_simp
      ring

theorem divisorC_eq_arity (t : BTreeDistribution)
    (hcase : t.leafReweighting = true ∨ t.dim = 2) : divisorC t = t.arity := by
  unfold divisorC
  by_cases hb : t.leafReweighting = true
  · rw [if_pos hb]
  · rw [if_neg hb]
    rcases hcase with h | h
    · exact absurd h hb
    · unfold BTreeDistribution.arity
      rw [h]
      norm_num

/-- C5 (amended).  If leaf reweighting is on or `D = 2`, then after any build
whose first-pass root has `weight > 0` and `density ≠ 0`, the rebuilt tree is
a normalized density: the root's density is 1 and the densities of the leaves,
each weighted by its cell volume, sum to 1.  (Without leaf reweighting and
with `D ≠ 2` the hard-coded divisor 4 breaks the leaf-mass identity, see the
counterexample.) -/
theorem build_normalized_leaf_mass (env : Env) (t : BTreeDistribution)
    (ns : List TreeNode) (T : BTreeDistribution)
    (hsq : ∀ q, 0 ≤ q → 0 ≤ env.sq q)
    (hS : StructOK t.arity t.nodes) (hA : AccumOK t.nodes)
    (hne : 0 < t.nodes.length)
    (hcase : t.leafReweighting = true ∨ t.dim = 2)
    (h1 : buildGo env t (t.nodes.length + 1) 0 1 [] = some ns)
    (hw : 0 < (ns.getD 0 default).weight)
    (hd : (ns.getD 0 default).density ≠ 0)
    (hb : t.build env = some T) :
    (T.nodes.getD 0 default).density = 1 ∧
    leafMass T.nodes T.arity (T.nodes.length + 1) 0 1 = some 1 := by
  obtain ⟨hdim, hlrw, hst, hsm, hlen, hGR, hroot⟩ := build_good env t T hS hA hsq hne hb
  have harity : T.arity = t.arity := by
    unfold BTreeDistribution.arity
    rw [hdim]
  have hdc : divisorC t = t.arity := divisorC_eq_arity t hcase
  have hGR2 : GoodRange t.arity t.arity T.nodes 0 T.nodes.length := by
    rw [hdc] at hGR
    exact hGR
  have hmass := leafMass_eq t.arity T.nodes (by unfold BTreeDistribution.arity; positivity)
    hGR2 (T.nodes.length + 1) 0 1 hlen (by omega)
  rw [harity]
  refine ⟨hroot, ?_⟩
  rw [hmass, hroot, one_mul]

theorem build_normalized_leaf_mass_witness :
    (bt1built.nodes.getD 0 default).density = 1 ∧
    leafMass bt1built.nodes bt1built.arity (bt1built.nodes.length + 1) 0 1 =
      some 1 :=
  build_normalized_leaf_mass idEnv bt1 bt1pre bt1built (fun _ h => h)
    (by unfold StructOK; decide) (by unfold AccumOK; decide) (by decide)
    (Or.inl rfl)
    (by decide) (by decide) (by decide) (by decide)

theorem pSum_nonneg (f : ℕ → ℚ) (b : ℕ) :
    ∀ n, (∀ j, j < n → 0 ≤ f j) → 0 ≤ pSum f b n := by
  intro n
  induction n with
  | zero => intro h; simp [pSum]
  | succ n ih =>
    intro h
    rw [pSum]
    have h1 := ih fun j hj => h j (by omega)
    split
    · exact add_nonneg h1 (h n (by omega))
    · simpa using h1

theorem pSum_ge (f : ℕ → ℚ) (b : ℕ) (hb2 : b % 2 = b) :
    ∀ n, b < n → (∀ j, j < n → 0 ≤ f j) → f b ≤ pSum f b n := by
  intro n
  induction n with
  | zero => intro hb h; omega
  | succ n ih =>
    intro hb h
    rw [pSum]
    by_cases hbn : b = n
    · rw [if_pos (by rw [← hbn]; exact hb2), ← hbn]
      have h1 := pSum_nonneg f b b fun j hj => h j (by omega)
      linarith
    · have h1 := ih (by omega) fun j hj => h j (by omega)
      have h2 : (0:ℚ) ≤ if n % 2 = b then f n else 0 := by
        split
        · exact h n (by omega)
        · exact le_refl 0
      linarith

theorem marginalP0n_bounds (nodes : List TreeNode) (cs : List ℕ) (rem d c : ℕ)
    (hc : c < 2 ^ d)
    (hpos : ∀ sl, sl < 2 ^ (d + rem + 1) →
      0 < (nodes.getD (cs.getD sl 0) default).density) :
    0 < marginalP0n nodes cs rem d c ∧ marginalP0n nodes cs rem d c < 1 := by
  have hslot : ∀ j, j < 2 ^ (rem + 1) → j * 2 ^ d + c < 2 ^ (d + rem + 1) := by
    intro j hj
    have h1 : j * 2 ^ d + c < (j + 1) * 2 ^ d := by
      rw [add_mul, one_mul]; omega
    have h2 : (j + 1) * 2 ^ d ≤ 2 ^ (rem + 1) * 2 ^ d :=
      Nat.mul_le_mul_right _ (by omega)
    have he : rem + 1 + d = d + rem + 1 := by omega
    have h3 : 2 ^ (rem + 1) * 2 ^ d = 2 ^ (d + rem + 1) := by
      rw [← pow_add, he]
    omega
  have hfpos : ∀ j, j < 2 ^ (rem + 1) → 0 < childDensity nodes cs d c j := by
    intro j hj
    unfold childDensity
    exact hpos _ (hslot j hj)
  have hfnn : ∀ j, j < 2 ^ (rem + 1) → 0 ≤ childDensity nodes cs d c j :=
    fun j hj => le_of_lt (hfpos j hj)
  have hn2 : 2 ≤ 2 ^ (rem + 1) := by
    calc 2 = 2 ^ 1 := by norm_num
    _ ≤ 2 ^ (rem + 1) := Nat.pow_le_pow_right (by norm_num) (by omega)
  have hp0 : 0 < pSum (fun j => childDensity nodes cs d c j) 0 (2 ^ (rem + 1)) :=
    lt_of_lt_of_le (hfpos 0 (by omega)) (pSum_ge _ 0 (by norm_num) _ (by omega) hfnn)
  have hp1 : 0 < pSum (fun j => childDensity nodes cs d c j) 1 (2 ^ (rem + 1)) :=
    lt_of_lt_of_le (hfpos 1 (by omega)) (pSum_ge _ 1 (by norm_num) _ (by omega) hfnn)
  unfold marginalP0n
  constructor
  · exact div_pos hp0 (by linarith)
  · rw [div_lt_one (by linarith)]
    linarith

theorem dimStep_spec (p0n scale : ℚ) (d c : ℕ) (x base : Vec)
    (h0 : 0 < p0n) (h1 : p0n < 1) (hlen : base.length = x.length)
    (hc : c < 2 ^ d) (hxd : 0 ≤ x.getD d 0 ∧ x.getD d 0 < 1)
    (hbd : (dimStep p0n scale d c x base).2.2.2 = true) :
    ∃ slab : Bool,
      (dimStep p0n scale d c x base).1 = c + (if slab then 2 ^ d else 0) ∧
      (dimStep p0n scale d c x base).1 < 2 ^ (d + 1) ∧
      (dimStep p0n scale d c x base).2.1.length = x.length ∧
      (dimStep p0n scale d c x base).2.2.1.length = base.length ∧
      (∀ j, j ≠ d →
        (dimStep p0n scale d c x base).2.1.getD j 0 = x.getD j 0 ∧
        (dimStep p0n scale d c x base).2.2.1.getD j 0 = base.getD j 0) ∧
      (0 ≤ (dimStep p0n scale d c x base).2.1.getD d 0 ∧
        (dimStep p0n scale d c x base).2.1.getD d 0 < 1) ∧
      (dimStep p0n scale d c x base).2.2.1.getD d 0 =
        base.getD d 0 + (if slab then scale / 2 else 0) := by
  have hne : x.getD d 0 ≠ p0n := by
    have h := hbd
    simp only [dimStep] at h
    exact of_decide_eq_true h
  have h2d : 0 < 2 ^ d := pow_pos (by norm_num) d
  have hpow : 2 ^ d < 2 ^ (d + 1) := by
    rw [pow_succ]; omega
  by_cases hslab : p0n < x.getD d 0
  · have hdx : d < x.length := by
      by_contra hdd
      have hz : x.getD d 0 = 0 := List.getD_eq_default x 0 (by omega)
      rw [hz] at hslab
      linarith
    have hdb : d < base.length := by omega
    have hD1 : (dimStep p0n scale d c x base).1 = c + 2 ^ d := by
      simp only [dimStep, if_pos hslab]
    have hD2 : (dimStep p0n scale d c x base).2.1 =
        x.set d ((x.getD d 0 - p0n) / (1 - p0n)) := by
      simp only [dimStep, if_pos hslab]
    have hD3 : (dimStep p0n scale d c x base).2.2.1 =
        base.set d (base.getD d 0 + scale / 2) := by
      simp only [dimStep, if_pos hslab]
    refine ⟨true, ?_, ?_, ?_, ?_, ?_, ?_, ?_⟩
    · rw [hD1]; simp
    · rw [hD1]; omega
    · rw [hD2]; simp
    · rw [hD3]; simp
    · intro j hj
      rw [hD2, hD3]
      exact ⟨getD_set_ne 0 (Ne.symm hj) _, getD_set_ne 0 (Ne.symm hj) _⟩
    · rw [hD2, getD_set_self 0 hdx]
      constructor
      · apply div_nonneg <;> linarith
      · rw [div_lt_one (by linarith)]
        linarith [hxd.2]
    · rw [hD3, getD_set_self 0 hdb]
      simp
  · have hlt : x.getD d 0 < p0n := lt_of_le_of_ne (not_lt.mp hslab) hne
    have hD1 : (dimStep p0n scale d c x base).1 = c := by
      simp only [dimStep, if_neg hslab]
    have hD2 : (dimStep p0n scale d c x base).2.1 =
        x.set d (x.getD d 0 / p0n) := by
      simp only [dimStep, if_neg hslab]
    have hD3 : (dimStep p0n scale d c x base).2.2.1 = base := by
      simp only [dimStep, if_neg hslab]
    refine ⟨false, ?_, ?_, ?_, ?_, ?_, ?_, ?_⟩
    · rw [hD1]; simp
    · rw [hD1]; omega
    · rw [hD2]; simp
    · rw [hD3]
    · intro j hj
      rw [hD2, hD3]
      exact ⟨getD_set_ne 0 (Ne.symm hj) _, rfl⟩
    · rw [hD2]
      by_cases hdx : d < x.length
      · rw [getD_set_self 0 hdx]
        constructor
        · exact div_nonneg hxd.1 (le_of_lt h0)
        · rw [div_lt_one h0]
          exact hlt
      · rw [List.getD_eq_default _ 0 (by simp; omega)]
        norm_num
    · rw [hD3]
      simp

theorem dimLoop_spec (nodes : List TreeNode) (cs : List ℕ) (scale : ℚ) :
    ∀ (rem d c : ℕ) (x base : Vec),
      c < 2 ^ d →
      base.length = x.length →
      (∀ sl, sl < 2 ^ (d + rem) → 0 < (nodes.getD (cs.getD sl 0) default).density) →
      (∀ j, d ≤ j → j < d + rem → 0 ≤ x.getD j 0 ∧ x.getD j 0 < 1) →
      (dimLoop nodes cs scale rem d c x base).2.2.2 = true →
      ∃ slabs : List Bool, slabs.length = rem ∧
        (dimLoop nodes cs scale rem d c x base).1 = c + bitsVal d slabs ∧
        (dimLoop nodes cs scale rem d c x base).2.1.length = x.length ∧
        (dimLoop nodes cs scale rem d c x base).2.2.1.length = base.length ∧
        (∀ j, j < d ∨ d + rem ≤ j →
          (dimLoop nodes cs scale rem d c x base).2.1.getD j 0 = x.getD j 0 ∧
          (dimLoop nodes cs scale rem d c x base).2.2.1.getD j 0 = base.getD j 0) ∧
        (∀ j, d ≤ j → j < d + rem →
          (0 ≤ (dimLoop nodes cs scale rem d c x base).2.1.getD j 0 ∧
            (dimLoop nodes cs scale rem d c x base).2.1.getD j 0 < 1) ∧
          (dimLoop nodes cs scale rem d c x base).2.2.1.getD j 0 =
            base.getD j 0 + (if slabs.getD (j - d) false then scale / 2 else 0)) := by
  intro rem
  induction rem with
  | zero =>
    intro d c x base hc hlen hpos hx hflag
    refine ⟨[], rfl, by simp [dimLoop, bitsVal], rfl, rfl,
      fun j hj => ⟨rfl, rfl⟩, fun j h1 h2 => by omega⟩
  | succ rem ih =>
    intro d c x base hc hlen hpos hx hflag
    have hu1 : (dimLoop nodes cs scale (rem + 1) d c x base).1 =
        (dimLoop nodes cs scale rem (d + 1)
          (dimStep (marginalP0n nodes cs rem d c) scale d c x base).1
          (dimStep (marginalP0n nodes cs rem d c) scale d c x base).2.1
          (dimStep (marginalP0n nodes cs rem d c) scale d c x base).2.2.1).1 := rfl
    have hu2 : (dimLoop nodes cs scale (rem + 1) d c x base).2.1 =
        (dimLoop nodes cs scale rem (d + 1)
          (dimStep (marginalP0n nodes cs rem d c) scale d c x base).1
          (dimStep (marginalP0n nodes cs rem d c) scale d c x base).2.1
          (dimStep (marginalP0n nodes cs rem d c) scale d c x base).2.2.1).2.1 := rfl
    have hu3 : (dimLoop nodes cs scale (rem + 1) d c x base).2.2.1 =
        (dimLoop nodes cs scale rem (d + 1)
          (dimStep (marginalP0n nodes cs rem d c) scale d c x base).1
          (dimStep (marginalP0n nodes cs rem d c) scale d c x base).2.1
          (dimStep (marginalP0n nodes cs rem d c) scale d c x base).2.2.1).2.2.1 := rfl
    have hu4 : (dimLoop nodes cs scale (rem + 1) d c x base).2.2.2 =
        ((dimStep (marginalP0n nodes cs rem d c) scale d c x base).2.2.2 &&
          (dimLoop nodes cs scale rem (d + 1)
            (dimStep (marginalP0n nodes cs rem d c) scale d c x base).1
            (dimStep (marginalP0n nodes cs rem d c) scale d c x base).2.1
            (dimStep (marginalP0n nodes cs rem d c) scale d c x base).2.2.1).2.2.2) := rfl
    rw [hu4] at hflag
    obtain ⟨hSf, hRf⟩ := Bool.and_eq_true_iff.mp hflag
    obtain ⟨hm0, hm1⟩ := marginalP0n_bounds nodes cs rem d c hc hpos
    obtain ⟨slab, hS1, hSlt, hSxl, hSbl, hSout, hSxd, hSbd⟩ :=
      dimStep_spec (marginalP0n nodes cs rem d c) scale d c x base hm0 hm1 hlen hc
        (hx d (le_refl d) (by omega)) hSf
    have hpos2 : ∀ sl, sl < 2 ^ (d + 1 + rem) →
        0 < (nodes.getD (cs.getD sl 0) default).density := by
      have he : d + 1 + rem = d + (rem + 1) := by omega
      rw [he]
      exact hpos
    have hx2 : ∀ j, d + 1 ≤ j → j < d + 1 + rem →
        0 ≤ (dimStep (marginalP0n nodes cs rem d c) scale d c x base).2.1.getD j 0 ∧
          (dimStep (marginalP0n nodes cs rem d c) scale d c x base).2.1.getD j 0 < 1 := by
      intro j hj1 hj2
      rw [(hSout j (by omega)).1]
      exact hx j (by omega) (by omega)
    have hlen2 : (dimStep (marginalP0n nodes cs rem d c) scale d c x base).2.2.1.length =
        (dimStep (marginalP0n nodes cs rem d c) scale d c x base).2.1.length := by
      rw [hSbl, hSxl]
      exact hlen
    obtain ⟨slabs2, hl2, hR1, hRxl, hRbl, hRout, hRin⟩ :=
      ih (d + 1) (dimStep (marginalP0n nodes cs rem d c) scale d c x base).1
        (dimStep (marginalP0n nodes cs rem d c) scale d c x base).2.1
        (dimStep (marginalP0n nodes cs rem d c) scale d c x base).2.2.1
        hSlt hlen2 hpos2 hx2 hRf
    refine ⟨slab :: slabs2, by simp [hl2], ?_, ?_, ?_, ?_, ?_⟩
    · rw [hu1, hR1, hS1]
      rw [show bitsVal d (slab :: slabs2) =
        (if slab then 2 ^ d else 0) + bitsVal (d + 1) slabs2 from rfl]
      omega
    · rw [hu2, hRxl, hSxl]
    · rw [hu3, hRbl, hSbl]
    · intro j hj
      constructor
      · rw [hu2, (hRout j (by omega)).1, (hSout j (by omega)).1]
      · rw [hu3, (hRout j (by omega)).2, (hSout j (by omega)).2]
    · intro j h1 h2
      by_cases hjd : j = d
      · subst hjd
        constructor
        · rw [hu2, (hRout j (by omega)).1]
          exact hSxd
        · rw [hu3, (hRout j (by omega)).2, hSbd]
          simp
      · have hdj : d + 1 ≤ j := by omega
        constructor
        · rw [hu2]
          exact (hRin j hdj (by omega)).1
        · rw [hu3, (hRin j hdj (by omega)).2, (hSout j (by omega)).2]
          have hsub : j - d = (j - (d + 1)) + 1 := by omega
          rw [hsub]
          rfl

theorem ext_getD (l1 l2 : List ℚ) (hl : l1.length = l2.length)
    (h : ∀ j, j < l1.length → l1.getD j 0 = l2.getD j 0) : l1 = l2 := by
  apply List.ext_getElem hl
  intro i h1 h2
  rw [← List.getD_eq_getElem l1 0 h1, ← List.getD_eq_getElem l2 0 h2]
  exact h i h1

theorem getD_zipWith {α β γ : Type} (f : α → β → γ) (l1 : List α) (l2 : List β)
    (j : ℕ) (dc : γ) (da : α) (db : β) (h1 : j < l1.length) (h2 : j < l2.length) :
    (List.zipWith f l1 l2).getD j dc = f (l1.getD j da) (l2.getD j db) := by
  rw [List.getD_eq_getElem _ dc (by rw [List.length_zipWith]; omega),
    List.getElem_zipWith, List.getD_eq_getElem l1 da h1, List.getD_eq_getElem l2 db h2]

theorem mkCoord_length (slabs : List Bool) (w : Vec) :
    (mkCoord slabs w).length = min slabs.length w.length := by
  simp [mkCoord]

theorem if_bool_false : (if (false : Bool) = true then (1:ℚ) else 0) = 0 := by simp

theorem if_bool_true : (if (true : Bool) = true then (1:ℚ) else 0) = 1 := by simp

theorem mkCoord_bounds (slabs : List Bool) :
    ∀ w : Vec, (∀ q ∈ w, 0 ≤ q ∧ q < 1) →
      ∀ q ∈ mkCoord slabs w, 0 ≤ q ∧ q < 1 := by
  induction slabs with
  | nil => intro w h q hq; simp [mkCoord] at hq
  | cons s rest ih =>
    intro w h q hq
    cases w with
    | nil => simp [mkCoord] at hq
    | cons q0 w2 =>
      rw [show mkCoord (s :: rest) (q0 :: w2) =
        ((if s then (1:ℚ) else 0) + q0) / 2 :: mkCoord rest w2 from rfl] at hq
      rcases List.mem_cons.mp hq with h1 | h1
      · subst h1
        have hb := h q0 (by simp)
        cases s
        · rw [if_bool_false]
          exact ⟨by linarith [hb.1], by linarith [hb.2]⟩
        · rw [if_bool_true]
          exact ⟨by linarith [hb.1], by linarith [hb.2]⟩
      · exact ih w2 (fun q2 hq2 => h q2 (by simp [hq2])) q h1

theorem locChildIndex_aux (slabs : List Bool) :
    ∀ (w : Vec) (k : ℕ), slabs.length = w.length → (∀ q ∈ w, 0 ≤ q ∧ q < 1) →
      (((mkCoord slabs w).enumFrom k).map
        fun pr => if (1:ℚ)/2 ≤ pr.2 then 2 ^ pr.1 else 0).sum = bitsVal k slabs := by
  induction slabs with
  | nil =>
    intro w k hl hw
    simp [mkCoord, bitsVal]
  | cons s rest ih =>
    intro w k hl hw
    cases w with
    | nil => simp at hl
    | cons q0 w2 =>
      have hq0 := hw q0 (by simp)
      rw [show mkCoord (s :: rest) (q0 :: w2) =
        ((if s then (1:ℚ) else 0) + q0) / 2 :: mkCoord rest w2 from rfl]
      rw [show List.enumFrom k ((((if s then (1:ℚ) else 0) + q0) / 2) :: mkCoord rest w2) =
        (k, ((if s then (1:ℚ) else 0) + q0) / 2) ::
          List.enumFrom (k + 1) (mkCoord rest w2) from rfl]
      rw [List.map_cons, List.sum_cons]
      rw [ih w2 (k + 1) (by simpa using hl) (fun q2 hq2 => hw q2 (by simp [hq2]))]
      rw [show bitsVal k (s :: rest) =
        (if s then 2 ^ k else 0) + bitsVal (k + 1) rest from rfl]
      congr 1
      cases s
      · rw [if_bool_false, if_neg (by push_neg; linarith [hq0.2])]
        simp
      · rw [if_bool_true, if_pos (by linarith [hq0.1])]
        simp

theorem locChildIndex_mkCoord (slabs : List Bool) (w : Vec)
    (hl : slabs.length = w.length) (hw : ∀ q ∈ w, 0 ≤ q ∧ q < 1) :
    locChildIndex (mkCoord slabs w) = bitsVal 0 slabs := by
  unfold locChildIndex
  rw [show (mkCoord slabs w).enum = (mkCoord slabs w).enumFrom 0 from rfl]
  exact locChildIndex_aux slabs w 0 hl hw

theorem locRemap_mkCoord (slabs : List Bool) :
    ∀ w : Vec, slabs.length = w.length → (∀ q ∈ w, 0 ≤ q ∧ q < 1) →
      locRemap (mkCoord slabs w) = w := by
  induction slabs with
  | nil =>
    intro w hl hw
    cases w with
    | nil => rfl
    | cons q0 w2 => simp at hl
  | cons s rest ih =>
    intro w hl hw
    cases w with
    | nil => simp at hl
    | cons q0 w2 =>
      have hq0 := hw q0 (by simp)
      rw [show mkCoord (s :: rest) (q0 :: w2) =
        ((if s then (1:ℚ) else 0) + q0) / 2 :: mkCoord rest w2 from rfl]
      rw [show locRemap ((((if s then (1:ℚ) else 0) + q0) / 2) :: mkCoord rest w2) =
        (if (1:ℚ)/2 ≤ ((if s then (1:ℚ) else 0) + q0) / 2 then
          2 * (((if s then (1:ℚ) else 0) + q0) / 2 - 1/2) else
          2 * (((if s then (1:ℚ) else 0) + q0) / 2)) ::
          locRemap (mkCoord rest w2) from rfl]
      rw [ih w2 (by simpa using hl) (fun q2 hq2 => hw q2 (by simp [hq2]))]
      congr 1
      cases s
      · rw [if_bool_false, if_neg (by push_neg; linarith [hq0.2])]
        ring
      · rw [if_bool_true, if_pos (by linarith [hq0.1])]
        ring

theorem sampleGo_spec (t : BTreeDistribution) (hS : StructOK t.arity t.nodes)
    (hpos : ∀ n ∈ t.nodes, 0 < n.density) :
    ∀ fuel i x base scale y p ℓ,
      x.length = t.dim → base.length = t.dim →
      (∀ j, j < t.dim → 0 ≤ x.getD j 0 ∧ x.getD j 0 < 1) →
      sampleGo t fuel i x base scale = some (y, p, ℓ, true) →
      ∃ w dep, w.length = t.dim ∧ (∀ q ∈ w, 0 ≤ q ∧ q < 1) ∧
        y = List.zipWith (fun b xi => b + scale * xi) base w ∧
        p = (t.nodes.getD ℓ default).density ∧ 0 < p ∧
        (∀ d0, indexAtGo t.nodes fuel i w d0 = some (ℓ, d0 + dep)) := by
  intro fuel
  induction fuel with
  | zero =>
    intro i x base scale y p ℓ hxl hbl hx h
    exact absurd h (by simp [sampleGo])
  | succ fuel ih =>
    intro i x base scale y p ℓ hxl hbl hx h
    simp only [sampleGo] at h
    cases hn : t.nodes[i]? with
    | none => simp [hn] at h
    | some n =>
      simp only [hn] at h
      have hi : i < t.nodes.length := (List.getElem?_eq_some.mp hn).1
      have hgd : t.nodes.getD i default = n := by
        simp [List.getD_eq_getElem?_getD, hn]
      have hmem : n ∈ t.nodes := by
        rw [← hgd]
        exact getD_mem hi
      by_cases hl : n.isLeaf = true
      · rw [if_pos hl] at h
        have h2 := Option.some.inj h
        have hy : List.zipWith (fun b xi => b + scale * xi) base x = y :=
          congrArg (fun z => z.1) h2
        have hp2 : n.density = p := congrArg (fun z => z.2.1) h2
        have hl2 : i = ℓ := congrArg (fun z => z.2.2.1) h2
        refine ⟨x, 0, hxl, ?_, hy.symm, ?_, ?_, ?_⟩
        · intro q hq
          obtain ⟨j, hj, hje⟩ := List.mem_iff_getElem.mp hq
          rw [← hje]
          have hb := hx j (by omega)
          rwa [List.getD_eq_getElem x 0 hj] at hb
        · rw [← hp2, ← hl2, hgd]
        · rw [← hp2]
          exact hpos n hmem
        · intro d0
          rw [indexAtGo]
          simp only [hn, if_pos hl]
          rw [← hl2]
          simp
      · rw [if_neg hl] at h
        have hlf : n.isLeaf = false := by
          cases hb : n.isLeaf
          · rfl
          · exact absurd hb hl
        cases hci : n.children[(dimLoop t.nodes n.children scale t.dim 0 0 x base).1]? with
        | none => simp [hci] at h
        | some ci =>
          simp only [hci] at h
          cases hq : sampleGo t fuel ci (dimLoop t.nodes n.children scale t.dim 0 0 x base).2.1
              (dimLoop t.nodes n.children scale t.dim 0 0 x base).2.2.1 (scale / 2) with
          | none => simp [hq] at h
          | some q =>
            obtain ⟨y2, p2, ℓ2, fl2⟩ := q
            simp only [hq] at h
            have h2 := Option.some.inj h
            have hy : y2 = y := congrArg (fun z => z.1) h2
            have hp2 : p2 = p := congrArg (fun z => z.2.1) h2
            have hl2 : ℓ2 = ℓ := congrArg (fun z => z.2.2.1) h2
            have hfl : ((dimLoop t.nodes n.children scale t.dim 0 0 x base).2.2.2 && fl2)
                = true := congrArg (fun z => z.2.2.2) h2
            obtain ⟨hDf, hflt⟩ := Bool.and_eq_true_iff.mp hfl
            subst hflt
            have hSi := hS i hi
            rw [hgd] at hSi
            have hcl : n.children.length = t.arity := hSi.1
            have hcb : ∀ c ∈ n.children, i < c ∧ c < t.nodes.length := hSi.2 hlf
            have hposslots : ∀ sl, sl < 2 ^ (0 + t.dim) →
                0 < (t.nodes.getD (n.children.getD sl 0) default).density := by
              intro sl hsl
              have hsl2 : sl < n.children.length := by
                rw [hcl]
                unfold BTreeDistribution.arity
                simpa using hsl
              have hcm : n.children.getD sl 0 ∈ n.children := by
                rw [List.getD_eq_getElem _ _ hsl2]
                exact List.getElem_mem hsl2
              exact hpos _ (getD_mem (hcb _ hcm).2)
            obtain ⟨slabs, hsll, hDL1, hDLxl, hDLbl, hDLout, hDLin⟩ :=
              dimLoop_spec t.nodes n.children scale t.dim 0 0 x base (by norm_num)
                (by rw [hbl, hxl]) hposslots (fun j h0 hj => hx j (by omega)) hDf
            have hxl2 : (dimLoop t.nodes n.children scale t.dim 0 0 x base).2.1.length
                = t.dim := hDLxl.trans hxl
            have hbl2 : (dimLoop t.nodes n.children scale t.dim 0 0 x base).2.2.1.length
                = t.dim := hDLbl.trans hbl
            have hx2 : ∀ j, j < t.dim →
                0 ≤ (dimLoop t.nodes n.children scale t.dim 0 0 x base).2.1.getD j 0 ∧
                (dimLoop t.nodes n.children scale t.dim 0 0 x base).2.1.getD j 0 < 1 :=
              fun j hj => (hDLin j (by omega) (by omega)).1
            obtain ⟨w2, dep2, hwl2, hwb2, hy2, hp3, hpp2, hidx2⟩ :=
              ih ci (dimLoop t.nodes n.children scale t.dim 0 0 x base).2.1
                (dimLoop t.nodes n.children scale t.dim 0 0 x base).2.2.1 (scale / 2)
                y2 p2 ℓ2 hxl2 hbl2 hx2 hq
            have hslw : slabs.length = w2.length := by rw [hsll, hwl2]
            refine ⟨mkCoord slabs w2, dep2 + 1, ?_, mkCoord_bounds slabs w2 hwb2, ?_, ?_, ?_, ?_⟩
            · rw [mkCoord_length, hsll, hwl2]
              simp
            · rw [← hy, hy2]
              apply ext_getD
              · simp [List.length_zipWith, hbl2, hwl2, hbl, mkCoord_length, hsll]
              · intro j hj
                rw [List.length_zipWith, hbl2, hwl2] at hj
                have hjd : j < t.dim := by omega
                rw [getD_zipWith _ _ _ _ _ (0:ℚ) (0:ℚ) (by rw [hbl2]; omega)
                    (by rw [hwl2]; omega),
                  getD_zipWith _ _ _ _ _ (0:ℚ) (0:ℚ) (by rw [hbl]; omega)
                    (by rw [mkCoord_length, hsll, hwl2]; omega)]
                rw [show mkCoord slabs w2 = List.zipWith
                  (fun s q => ((if s then (1:ℚ) else 0) + q) / 2) slabs w2 from rfl]
                rw [getD_zipWith _ _ _ _ _ false (0:ℚ) (by rw [hsll]; omega)
                  (by rw [hwl2]; omega)]
                have hbj := (hDLin j (by omega) (by omega)).2
                rw [Nat.sub_zero] at hbj
                rw [hbj]
                by_cases hsj : slabs.getD j false = true
                · rw [if_pos hsj, if_pos hsj]
                  ring
                · rw [if_neg hsj, if_neg hsj]
                  ring
            · rw [← hp2, hp3, hl2]
            · rw [← hp2]
              exact hpp2
            · intro d0
              rw [indexAtGo]
              simp only [hn, if_neg hl]
              have hloc : locChildIndex (mkCoord slabs w2) =
                  (dimLoop t.nodes n.children scale t.dim 0 0 x base).1 := by
                rw [locChildIndex_mkCoord slabs w2 hslw hwb2, hDL1]
                omega
              rw [hloc]
              simp only [hci]
              rw [locRemap_mkCoord slabs w2 hslw hwb2]
              rw [hidx2 (d0 + 1)]
              have he : d0 + 1 + dep2 = d0 + (dep2 + 1) := by omega
              rw [hl2, he]

/-- C6 (amended).  For a tree satisfying the structural invariant whose node
densities are all strictly positive (the condition the code itself asserts at
the sampled leaf), and an input `x ∈ [0,1)^D` whose warp never lands exactly
on a comparison boundary `x[d] = p[0]` (ghost flag `true`), `sample` returns
a point in `[0,1)^D` together with a positive pdf, and `pdf` at the returned
point equals the pdf returned by `sample` (the located leaf's density).  At
an exact boundary the agreement can fail, see the counterexample. -/
theorem sample_pdf_consistent (t : BTreeDistribution) (x y : Vec) (p : ℚ) (ℓ : ℕ)
    (hS : StructOK t.arity t.nodes)
    (hpos : ∀ n ∈ t.nodes, 0 < n.density)
    (hxl : x.length = t.dim)
    (hx : ∀ j, j < t.dim → 0 ≤ x.getD j 0 ∧ x.getD j 0 < 1)
    (hs : t.sample x = some (y, p, ℓ, true)) :
    y.length = t.dim ∧ (∀ q ∈ y, 0 ≤ q ∧ q < 1) ∧ 0 < p ∧ t.pdf y = some p := by
  have hbase : (x.map fun _ => (0:ℚ)).length = t.dim := by simp [hxl]
  obtain ⟨w, dep, hwl, hwb, hy, hp, hpp, hidx⟩ :=
    sampleGo_spec t hS hpos (t.nodes.length + 1) 0 x (x.map fun _ => 0) 1 y p ℓ
      hxl hbase hx hs
  have hyw : y = w := by
    rw [hy]
    apply ext_getD
    · simp [List.length_zipWith, List.length_map, hxl, hwl]
    · intro j hj
      rw [List.length_zipWith, hbase, hwl] at hj
      rw [getD_zipWith _ _ _ _ _ (0:ℚ) (0:ℚ) (by rw [hbase]; omega)
        (by rw [hwl]; omega)]
      have hz : (x.map fun _ => (0:ℚ)).getD j 0 = 0 := by
        rw [List.getD_eq_getElem _ 0 (by rw [hbase]; omega)]
        simp
      rw [hz]
      ring
  have hℓ : ℓ < t.nodes.length := by
    by_contra hcc
    push_neg at hcc
    rw [hp, List.getD_eq_default _ _ hcc] at hpp
    norm_num [show ((default : TreeNode)).density = (0:ℚ) from rfl] at hpp
  refine ⟨by rw [hyw]; exact hwl, by rw [hyw]; exact hwb, hpp, ?_⟩
  unfold BTreeDistribution.pdf BTreeDistribution.indexAt
  rw [hyw, hidx 0]
  simp only [Option.some_bind]
  rw [List.getElem?_eq_getElem hℓ]
  simp only [Option.map_some']
  rw [hp, List.getD_eq_getElem t.nodes default hℓ]

theorem sample_pdf_consistent_witness :
    ([(1:ℚ)/4] : Vec).length = bt1built.dim ∧
    (∀ q ∈ ([(1:ℚ)/4] : Vec), 0 ≤ q ∧ q < 1) ∧
    (0:ℚ) < 4 / 3 ∧ bt1built.pdf [(1:ℚ)/4] = some (4 / 3) :=
  sample_pdf_consistent bt1built [(1:ℚ)/3] [(1:ℚ)/4] (4 / 3) 1
    (by unfold StructOK; decide) (by decide) (by decide) (by decide) (by decide)

theorem locChildIndex_ub (l : Vec) :
    ∀ k, ((List.enumFrom k l).map
      fun pr => if (1:ℚ)/2 ≤ pr.2 then 2 ^ pr.1 else 0).sum + 2 ^ k ≤
      2 ^ (k + l.length) := by
  induction l with
  | nil => intro k; simp
  | cons a l ih =>
    intro k
    rw [show List.enumFrom k (a :: l) = (k, a) :: List.enumFrom (k + 1) l from rfl,
      List.map_cons, List.sum_cons]
    have hred : (if (1:ℚ)/2 ≤ ((k, a) : ℕ × ℚ).2 then 2 ^ ((k, a) : ℕ × ℚ).1 else 0) =
        (if (1:ℚ)/2 ≤ a then 2 ^ k else 0) := rfl
    rw [hred]
    have h1 := ih (k + 1)
    have h2 : (if (1:ℚ)/2 ≤ a then 2 ^ k else 0) ≤ 2 ^ k := by
      split
      · exact le_refl _
      · exact Nat.zero_le _
    have h3 : k + 1 + l.length = k + (a :: l).length := by simp; omega
    rw [h3] at h1
    have h4 : 2 ^ (k + 1) = 2 ^ k + 2 ^ k := by rw [pow_succ]; omega
    omega

theorem locChildIndex_lt (x : Vec) : locChildIndex x < 2 ^ x.length := by
  have h := locChildIndex_ub x 0
  unfold locChildIndex
  rw [show x.enum = x.enumFrom 0 from rfl]
  simp only [pow_zero, Nat.zero_add] at h
  omega

theorem locRemap_length (x : Vec) : (locRemap x).length = x.length := by
  unfold locRemap
  rw [List.length_map]

theorem isLeaf_false_of_ne {n : TreeNode} (h : ¬ n.isLeaf = true) :
    n.isLeaf = false := by
  cases hb : n.isLeaf
  · rfl
  · exact absurd hb h

theorem indexAtGo_total (D : ℕ) (nodes : List TreeNode)
    (hS : StructOK (2 ^ D) nodes) :
    ∀ fuel i x d, i < nodes.length → nodes.length - i ≤ fuel → x.length = D →
      ∃ j dep, indexAtGo nodes fuel i x d = some (j, dep) := by
  intro fuel
  induction fuel with
  | zero => intro i x d hi hf hxl; omega
  | succ fuel ih =>
    intro i x d hi hf hxl
    rw [indexAtGo]
    cases hn : nodes[i]? with
    | none =>
      rw [List.getElem?_eq_getElem hi] at hn
      exact absurd hn (by simp)
    | some n =>
      simp only [hn]
      have hgd : nodes.getD i default = n := by
        simp [List.getD_eq_getElem?_getD, hn]
      by_cases hleaf : n.isLeaf = true
      · rw [if_pos hleaf]
        exact ⟨i, d, rfl⟩
      · rw [if_neg hleaf]
        have hSi := hS i hi
        rw [hgd] at hSi
        have hloc : locChildIndex x < n.children.length := by
          rw [hSi.1]
          have h := locChildIndex_lt x
          rwa [hxl] at h
        cases hc : n.children[locChildIndex x]? with
        | none =>
          rw [List.getElem?_eq_getElem hloc] at hc
          exact absurd hc (by simp)
        | some ci =>
          simp only [hc]
          have hcm : ci ∈ n.children := by
            obtain ⟨hlt2, heq⟩ := List.getElem?_eq_some.mp hc
            rw [← heq]
            exact List.getElem_mem hlt2
          have hib := hSi.2 (isLeaf_false_of_ne hleaf) ci hcm
          exact ih ci (locRemap x) (d + 1) hib.2 (by omega)
            (by rw [locRemap_length]; exact hxl)

theorem dimStep_fst_lt (p0n scale : ℚ) (d c : ℕ) (x base : Vec) (hc : c < 2 ^ d) :
    (dimStep p0n scale d c x base).1 < 2 ^ (d + 1) := by
  have h2d : 0 < 2 ^ d := pow_pos (by norm_num) d
  have hps : 2 ^ (d + 1) = 2 ^ d * 2 := pow_succ 2 d
  simp only [dimStep]
  split
  · omega
  · omega

theorem dimLoop_fst_lt (nodes : List TreeNode) (cs : List ℕ) (scale : ℚ) :
    ∀ rem d c x base, c < 2 ^ d →
      (dimLoop nodes cs scale rem d c x base).1 < 2 ^ (d + rem) := by
  intro rem
  induction rem with
  | zero =>
    intro d c x base hc
    simpa [dimLoop] using hc
  | succ rem ih =>
    intro d c x base hc
    have hu1 : (dimLoop nodes cs scale (rem + 1) d c x base).1 =
        (dimLoop nodes cs scale rem (d + 1)
          (dimStep (marginalP0n nodes cs rem d c) scale d c x base).1
          (dimStep (marginalP0n nodes cs rem d c) scale d c x base).2.1
          (dimStep (marginalP0n nodes cs rem d c) scale d c x base).2.2.1).1 := rfl
    rw [hu1]
    have hs := dimStep_fst_lt (marginalP0n nodes cs rem d c) scale d c x base hc
    have h := ih (d + 1) (dimStep (marginalP0n nodes cs rem d c) scale d c x base).1
      (dimStep (marginalP0n nodes cs rem d c) scale d c x base).2.1
      (dimStep (marginalP0n nodes cs rem d c) scale d c x base).2.2.1 hs
    have he : d + 1 + rem = d + (rem + 1) := by omega
    rwa [he] at h

theorem sampleGo_total (t : BTreeDistribution) (hS : StructOK t.arity t.nodes) :
    ∀ fuel i x base scale, i < t.nodes.length → t.nodes.length - i ≤ fuel →
      ∃ r, sampleGo t fuel i x base scale = some r := by
  intro fuel
  induction fuel with
  | zero => intro i x base scale hi hf; omega
  | succ fuel ih =>
    intro i x base scale hi hf
    simp only [sampleGo]
    cases hn : t.nodes[i]? with
    | none =>
      rw [List.getElem?_eq_getElem hi] at hn
      exact absurd hn (by simp)
    | some n =>
      simp only [hn]
      have hgd : t.nodes.getD i default = n := by
        simp [List.getD_eq_getElem?_getD, hn]
      by_cases hleaf : n.isLeaf = true
      · rw [if_pos hleaf]
        exact ⟨_, rfl⟩
      · rw [if_neg hleaf]
        have hSi := hS i hi
        rw [hgd] at hSi
        have hfst : (dimLoop t.nodes n.children scale t.dim 0 0 x base).1 <
            n.children.length := by
          rw [hSi.1]
          have h := dimLoop_fst_lt t.nodes n.children scale t.dim 0 0 x base
            (by norm_num)
          rw [Nat.zero_add] at h
          unfold BTreeDistribution.arity
          exact h
        cases hc : n.children[(dimLoop t.nodes n.children scale t.dim 0 0 x base).1]? with
        | none =>
          rw [List.getElem?_eq_getElem hfst] at hc
          exact absurd hc (by simp)
        | some ci =>
          simp only [hc]
          have hcm : ci ∈ n.children := by
            obtain ⟨hlt2, heq⟩ := List.getElem?_eq_some.mp hc
            rw [← heq]
            exact List.getElem_mem hlt2
          have hib := hSi.2 (isLeaf_false_of_ne hleaf) ci hcm
          obtain ⟨r2, hr2⟩ := ih ci
            (dimLoop t.nodes n.children scale t.dim 0 0 x base).2.1
            (dimLoop t.nodes n.children scale t.dim 0 0 x base).2.2.1
            (scale / 2) hib.2 (by omega)
          rw [hr2]
          exact ⟨_, rfl⟩

theorem mapM_isSome {α β : Type} (f : α → Option β) :
    ∀ cs : List α, (∀ c ∈ cs, ∃ v, f c = some v) → ∃ l, cs.mapM f = some l := by
  intro cs
  induction cs with
  | nil => intro h; exact ⟨[], rfl⟩
  | cons c rest ih =>
    intro h
    obtain ⟨v, hv⟩ := h c (by simp)
    obtain ⟨l, hl⟩ := ih fun e he => h e (by simp [he])
    rw [List.mapM_cons, hv, hl]
    exact ⟨v :: l, rfl⟩

theorem depthGo_total (a : ℕ) (nodes : List TreeNode) (hS : StructOK a nodes) :
    ∀ fuel i, i < nodes.length → nodes.length - i ≤ fuel →
      ∃ v, depthGo nodes fuel i = some v := by
  intro fuel
  induction fuel with
  | zero => intro i hi hf; omega
  | succ fuel ih =>
    intro i hi hf
    rw [depthGo]
    cases hn : nodes[i]? with
    | none =>
      rw [List.getElem?_eq_getElem hi] at hn
      exact absurd hn (by simp)
    | some n =>
      simp only [hn]
      have hgd : nodes.getD i default = n := by
        simp [List.getD_eq_getElem?_getD, hn]
      by_cases hleaf : n.isLeaf = true
      · rw [if_pos hleaf]
        exact ⟨1, rfl⟩
      · rw [if_neg hleaf]
        have hSi := hS i hi
        rw [hgd] at hSi
        have hkids : ∀ c ∈ n.children, ∃ v, depthGo nodes fuel c = some v := by
          intro c hc
          have hib := hSi.2 (isLeaf_false_of_ne hleaf) c hc
          exact ih c hib.2 (by omega)
        obtain ⟨l, hl⟩ := mapM_isSome (depthGo nodes fuel) n.children hkids
        rw [hl]
        exact ⟨_, rfl⟩

theorem structOK_transfer {a : ℕ} {ns ms : List TreeNode}
    (hlen : ms.length = ns.length)
    (hch : ∀ j, (ms.getD j default).children = (ns.getD j default).children)
    (hS : StructOK a ns) : StructOK a ms := by
  intro i hi
  have hi2 : i < ns.length := by omega
  obtain ⟨g1, g2⟩ := hS i hi2
  refine ⟨by rw [hch i]; exact g1, ?_⟩
  intro hlf c hc
  rw [show (ms.getD i default).isLeaf = (ns.getD i default).isLeaf from by
    unfold TreeNode.isLeaf; rw [hch i]] at hlf
  rw [hch i] at hc
  have h := g2 hlf c hc
  omega

theorem splatFilteredGo_total (env : Env) (D : ℕ) (sm : Bool) (omin omax : Vec)
    (v w : ℚ) :
    ∀ fuel nodes i (nmin : Vec) (nsize : ℚ),
      StructOK (2 ^ D) nodes → i < nodes.length → nodes.length - i ≤ fuel →
      ∃ ns, splatFilteredGo env D sm omin omax v w fuel nodes i nmin nsize = some ns ∧
        ns.length = nodes.length ∧
        (∀ j, (ns.getD j default).children = (nodes.getD j default).children) := by
  intro fuel
  induction fuel with
  | zero => intro nodes i nmin nsize hS hi hf; omega
  | succ fuel ih =>
    intro nodes i nmin nsize hS hi hf
    simp only [splatFilteredGo]
    by_cases hov : 0 < computeOverlap omin omax nmin (List.map (fun x => x + nsize) nmin)
    · rw [if_pos hov]
      cases hn : nodes[i]? with
      | none =>
        rw [List.getElem?_eq_getElem hi] at hn
        exact absurd hn (by simp)
      | some n =>
        simp only [hn]
        have hgd : nodes.getD i default = n := by
          simp [List.getD_eq_getElem?_getD, hn]
        by_cases hleaf : n.isLeaf = true
        · rw [if_pos hleaf]
          refine ⟨_, rfl, by simp, fun j => ?_⟩
          by_cases hj : j = i
          · subst hj
            rw [getD_set_self default hi, hgd]
            rfl
          · rw [getD_set_ne default (Ne.symm hj) _]
        · rw [if_neg hleaf]
          have hSi := hS i hi
          rw [hgd] at hSi
          have hcb := hSi.2 (isLeaf_false_of_ne hleaf)
          have hloop : ∀ (l : List ℕ), (∀ c ∈ l, c < 2 ^ D) →
              ∀ cur, cur.length = nodes.length →
              (∀ j, (cur.getD j default).children = (nodes.getD j default).children) →
              ∃ ns, splatKids (fun ns2 i2 cm =>
                  splatFilteredGo env D sm omin omax v w fuel ns2 i2 cm (nsize / 2))
                  n.children nmin (nsize / 2) l cur = some ns ∧
                ns.length = nodes.length ∧
                (∀ j, (ns.getD j default).children = (nodes.getD j default).children) := by
            intro l
            induction l with
            | nil => intro hl cur h1 h2; exact ⟨cur, rfl, h1, h2⟩
            | cons c rest ihl =>
              intro hl cur h1 h2
              simp only [splatKids]
              have hc2 : c < 2 ^ D := hl c (by simp)
              have hcl : c < n.children.length := by rw [hSi.1]; exact hc2
              have hcm : n.children.getD c 0 ∈ n.children := by
                rw [List.getD_eq_getElem _ _ hcl]
                exact List.getElem_mem hcl
              have hib := hcb _ hcm
              have hScur : StructOK (2 ^ D) cur := structOK_transfer h1 h2 hS
              obtain ⟨ns1, hns1, hlen1, hch1⟩ := ih cur (n.children.getD c 0)
                (childMinOf nmin (nsize / 2) c) (nsize / 2) hScur
                (by omega) (by omega)
              rw [hns1]
              exact ihl (fun e he => hl e (by simp [he])) ns1 (hlen1.trans h1)
                (fun j => (hch1 j).trans (h2 j))
          exact hloop (List.range (2 ^ D)) (fun c hc => List.mem_range.mp hc)
            nodes rfl (fun j => rfl)
    · rw [if_neg hov]
      exact ⟨nodes, rfl, rfl, fun j => rfl⟩

theorem splatFilteredGo_props (env : Env) (D : ℕ) (sm : Bool) :
    ∀ fuel (omin omax : Vec) (v w : ℚ) nodes i (nmin : Vec) (nsize : ℚ)
      (ns : List TreeNode),
      splatFilteredGo env D sm omin omax v w fuel nodes i nmin nsize = some ns →
      AccumOK nodes → 0 ≤ w →
      0 ≤ (if sm then env.tgt v * env.tgt v else env.tgt v) →
      ns.length = nodes.length ∧
      (∀ j, (ns.getD j default).children = (nodes.getD j default).children) ∧
      AccumOK ns := by
  intro fuel
  induction fuel with
  | zero =>
    intro omin omax v w nodes i nmin nsize ns h hA hw htv
    exact absurd h (by simp [splatFilteredGo])
  | succ fuel ih =>
    intro omin omax v w nodes i nmin nsize ns h hA hw htv
    simp only [splatFilteredGo] at h
    by_cases hov : 0 < computeOverlap omin omax nmin (List.map (fun x => x + nsize) nmin)
    · rw [if_pos hov] at h
      cases hn : nodes[i]? with
      | none => simp [hn] at h
      | some n =>
        simp only [hn] at h
        have hi : i < nodes.length := (List.getElem?_eq_some.mp hn).1
        have hgd : nodes.getD i default = n := by
          simp [List.getD_eq_getElem?_getD, hn]
        by_cases hleaf : n.isLeaf = true
        · rw [if_pos hleaf] at h
          have h0 := Option.some.inj h
          subst h0
          refine ⟨by simp, fun j => ?_, ?_⟩
          · by_cases hj : j = i
            · subst hj
              rw [getD_set_self default hi, hgd]
              rfl
            · rw [getD_set_ne default (Ne.symm hj) _]
          · intro m hm
            rcases List.mem_or_eq_of_mem_set hm with h1 | h1
            · exact hA m h1
            · subst h1
              have hAn := hA n (by rw [← hgd]; exact getD_mem hi)
              simp only [TreeNode.splatNode]
              constructor
              · exact add_nonneg hAn.1 (mul_nonneg htv (mul_nonneg hw (le_of_lt hov)))
              · exact add_nonneg hAn.2 (mul_nonneg hw (le_of_lt hov))
        · rw [if_neg hleaf] at h
          have hloop : ∀ (l : List ℕ) (cur cur2 : List TreeNode),
              splatKids (fun ns2 i2 cm =>
                splatFilteredGo env D sm omin omax v w fuel ns2 i2 cm (nsize / 2))
                n.children nmin (nsize / 2) l cur = some cur2 →
              AccumOK cur →
              cur2.length = cur.length ∧
              (∀ j, (cur2.getD j default).children = (cur.getD j default).children) ∧
              AccumOK cur2 := by
            intro l
            induction l with
            | nil =>
              intro cur cur2 hh h2
              have h0 := Option.some.inj hh
              subst h0
              exact ⟨rfl, fun j => rfl, h2⟩
            | cons c rest ihl =>
              intro cur cur2 hh h2
              have hh2 : (match splatFilteredGo env D sm omin omax v w fuel cur
                  (n.children.getD c 0) (childMinOf nmin (nsize / 2) c) (nsize / 2) with
                | none => none
                | some nodes1 => splatKids (fun ns2 i2 cm =>
                    splatFilteredGo env D sm omin omax v w fuel ns2 i2 cm (nsize / 2))
                    n.children nmin (nsize / 2) rest nodes1) = some cur2 := hh
              cases hr : splatFilteredGo env D sm omin omax v w fuel cur
                  (n.children.getD c 0) (childMinOf nmin (nsize / 2) c) (nsize / 2) with
              | none =>
                simp only [hr] at hh2
                exact absurd hh2 (by simp)
              | some cur1 =>
                simp only [hr] at hh2
                obtain ⟨hl1, hc1, hA1⟩ := ih omin omax v w cur _ _ _ cur1 hr h2 hw htv
                obtain ⟨hl3, hc3, hA3⟩ := ihl cur1 cur2 hh2 hA1
                exact ⟨hl3.trans hl1, fun j => (hc3 j).trans (hc1 j), hA3⟩
          exact hloop (List.range (2 ^ D)) nodes ns h hA
    · rw [if_neg hov] at h
      have h0 := Option.some.inj h
      subst h0
      exact ⟨rfl, fun j => rfl, hA⟩

theorem splat_total (env : Env) (t : BTreeDistribution) (x : Vec) (v w : ℚ)
    (hS : StructOK t.arity t.nodes) (hne : 0 < t.nodes.length)
    (hxl : x.length = t.dim) :
    ∃ t2, t.splat env x v w = some t2 := by
  obtain ⟨j, dep, hj⟩ := indexAtGo_total t.dim t.nodes hS (t.nodes.length + 1) 0 x 0
    hne (by omega) hxl
  have hidx : t.indexAt x = some (j, dep) := hj
  unfold BTreeDistribution.splat
  by_cases hfil : t.doFiltering = false
  · rw [if_pos hfil, hidx]
    exact ⟨_, rfl⟩
  · rw [if_neg hfil, hidx]
    show ∃ t2, (splatFilteredGo env t.dim t.secondMoment
        (x.map fun xi => xi - (1 / (2 ^ dep : ℚ)) / 2)
        (x.map fun xi => xi + (1 / (2 ^ dep : ℚ)) / 2) v
        (w / ((1 / (2 ^ dep : ℚ)) * (1 / (2 ^ dep : ℚ))))
        (t.nodes.length + 1) t.nodes 0 (x.map fun _ => 0) 1).map
        (fun ns => { t with nodes := ns }) = some t2
    obtain ⟨ns, hns, h1, h2⟩ := splatFilteredGo_total env t.dim t.secondMoment
      (x.map fun xi => xi - (1 / (2 ^ dep : ℚ)) / 2)
      (x.map fun xi => xi + (1 / (2 ^ dep : ℚ)) / 2) v
      (w / ((1 / (2 ^ dep : ℚ)) * (1 / (2 ^ dep : ℚ))))
      (t.nodes.length + 1) t.nodes 0 (x.map fun _ => 0) 1 hS hne (by omega)
    rw [hns]
    exact ⟨_, rfl⟩

theorem splat_inv (env : Env) (t t2 : BTreeDistribution) (x : Vec) (v w : ℚ)
    (hv : 0 ≤ v) (hw : 0 ≤ w) (htgt : ∀ q, 0 ≤ q → 0 ≤ env.tgt q)
    (hS : StructOK t.arity t.nodes) (hA : AccumOK t.nodes) (hne : 0 < t.nodes.length)
    (hsp : t.splat env x v w = some t2) :
    t2.dim = t.dim ∧ StructOK t.arity t2.nodes ∧ AccumOK t2.nodes ∧
    0 < t2.nodes.length := by
  have htv : 0 ≤ (if t.secondMoment then env.tgt v * env.tgt v else env.tgt v) := by
    split
    · exact mul_self_nonneg _
    · exact htgt v hv
  unfold BTreeDistribution.splat at hsp
  by_cases hfil : t.doFiltering = false
  · rw [if_pos hfil] at hsp
    cases hidx : t.indexAt x with
    | none => rw [hidx] at hsp; exact absurd hsp (by simp)
    | some pr =>
      rw [hidx] at hsp
      simp only [Option.map_some'] at hsp
      have ht2 := (Option.some.inj hsp).symm
      subst ht2
      have hlt : pr.1 < t.nodes.length :=
        indexAtGo_lt t.nodes (t.nodes.length + 1) 0 x 0 pr.1 pr.2 hidx
      refine ⟨rfl, ?_, ?_, by simp [List.length_set]; omega⟩
      · apply structOK_transfer (by simp [List.length_set]) (fun j => ?_) hS
        by_cases hj : j = pr.1
        · subst hj
          rw [getD_set_self default hlt]
          rfl
        · rw [getD_set_ne default (Ne.symm hj) _]
      · intro m hm
        rcases List.mem_or_eq_of_mem_set hm with h1 | h1
        · exact hA m h1
        · subst h1
          have hAn := hA _ (getD_mem hlt)
          simp only [TreeNode.splatNode]
          constructor
          · exact add_nonneg hAn.1 (mul_nonneg htv hw)
          · exact add_nonneg hAn.2 hw
  · rw [if_neg hfil] at hsp
    cases hidx : t.indexAt x with
    | none => rw [hidx] at hsp; exact absurd hsp (by simp)
    | some pr =>
      rw [hidx] at hsp
      have hsp2 : (splatFilteredGo env t.dim t.secondMoment
          (x.map fun xi => xi - (1 / (2 ^ pr.2 : ℚ)) / 2)
          (x.map fun xi => xi + (1 / (2 ^ pr.2 : ℚ)) / 2) v
          (w / ((1 / (2 ^ pr.2 : ℚ)) * (1 / (2 ^ pr.2 : ℚ))))
          (t.nodes.length + 1) t.nodes 0 (x.map fun _ => 0) 1).map
          (fun ns => { t with nodes := ns }) = some t2 := hsp
      obtain ⟨ns, hns, ht2⟩ := Option.map_eq_some'.mp hsp2
      obtain ⟨hlen2, hch2, hA2⟩ := splatFilteredGo_props env t.dim t.secondMoment
        (t.nodes.length + 1) _ _ v _ t.nodes 0 _ 1 ns hns hA
        (div_nonneg hw (by positivity)) htv
      refine ⟨by rw [← ht2], ?_, ?_, ?_⟩
      · have hSn : StructOK t.arity ns := structOK_transfer hlen2 hch2 hS
        rw [← ht2]
        exact hSn
      · rw [← ht2]
        exact hA2
      · rw [← ht2]
        simp only []
        omega

theorem headD_eq_getD {α : Type} (l : List α) (d : α) : l.headD d = l.getD 0 d := by
  cases l <;> rfl

theorem splitNodes_props (nodes : List TreeNode) (i a : ℕ) (ha : 0 < a)
    (hS : StructOK a nodes) (hA : AccumOK nodes) (hi : i < nodes.length)
    (hleaf : (nodes.getD i default).isLeaf = true) :
    StructOK a (splitNodes nodes i a) ∧ AccumOK (splitNodes nodes i a) ∧
    (splitNodes nodes i a).length = nodes.length + a := by
  have hlen : (splitNodes nodes i a).length = nodes.length + a := by
    simp [splitNodes, List.length_set, List.length_append, List.length_replicate]
  have hi2 : i < (nodes ++ List.replicate a (nodes.getD i default)).length := by
    simp [List.length_append]
    omega
  have hP : (splitNodes nodes i a).getD i default =
      { nodes.getD i default with children := (List.range a).map fun k => nodes.length + k } := by
    unfold splitNodes
    rw [getD_set_self default hi2]
  have hgetold : ∀ j, j ≠ i → j < nodes.length →
      (splitNodes nodes i a).getD j default = nodes.getD j default := by
    intro j hj hjl
    unfold splitNodes
    rw [getD_set_ne default (Ne.symm hj) _, getD_append_lt default hjl]
  have hgetnew : ∀ j, nodes.length ≤ j → j < nodes.length + a →
      (splitNodes nodes i a).getD j default = nodes.getD i default := by
    intro j hj hjl
    unfold splitNodes
    rw [getD_set_ne default (by omega) _, getD_append_ge default hj]
    rw [List.getD_eq_getElem _ _ (by simp [List.length_replicate]; omega),
      List.getElem_replicate]
  refine ⟨?_, ?_, hlen⟩
  · intro j hj
    rw [hlen] at hj
    by_cases hji : j = i
    · subst hji
      rw [hP]
      constructor
      · simp [List.length_map, List.length_range]
      · intro hlf c hc
        simp only [List.mem_map, List.mem_range] at hc
        obtain ⟨k, hk, hke⟩ := hc
        rw [hlen]
        omega
    · by_cases hjl : j < nodes.length
      · rw [hgetold j hji hjl]
        obtain ⟨g1, g2⟩ := hS j hjl
        refine ⟨g1, fun hlf c hc => ?_⟩
        have h := g2 hlf c hc
        rw [hlen]
        omega
      · rw [hgetnew j (by omega) hj]
        refine ⟨(hS i hi).1, fun hlf => ?_⟩
        rw [hleaf] at hlf
        exact absurd hlf (by simp)
  · intro m hm
    unfold splitNodes at hm
    rcases List.mem_or_eq_of_mem_set hm with h1 | h1
    · rcases List.mem_append.mp h1 with h2 | h2
      · exact hA m h2
      · rw [List.eq_of_mem_replicate h2]
        exact hA _ (getD_mem hi)
    · subst h1
      have hAn := hA _ (getD_mem hi)
      exact ⟨hAn.1, hAn.2⟩

theorem refineGo_inv (threshold : ℚ) (a : ℕ) (ha : 0 < a) :
    ∀ fuel i scale ns ns2,
      refineGo threshold a fuel i scale ns = some ns2 →
      StructOK a ns → AccumOK ns →
      StructOK a ns2 ∧ AccumOK ns2 ∧ ns.length ≤ ns2.length := by
  intro fuel
  induction fuel with
  | zero =>
    intro i scale ns ns2 h hS hA
    exact absurd h (by simp [refineGo])
  | succ fuel ih =>
    intro i scale ns ns2 h hS hA
    rw [refineGo] at h
    cases hn : ns[i]? with
    | none => simp [hn] at h
    | some n =>
      simp only [hn] at h
      have hi : i < ns.length := (List.getElem?_eq_some.mp hn).1
      have hgd : ns.getD i default = n := by
        simp [List.getD_eq_getElem?_getD, hn]
      have hloop : ∀ (l : List ℕ) (cur cur2 : List TreeNode),
          refineKids (fun c ns3 => refineGo threshold a fuel c (scale * (a:ℚ)) ns3)
            i l cur = some cur2 →
          StructOK a cur → AccumOK cur →
          StructOK a cur2 ∧ AccumOK cur2 ∧ cur.length ≤ cur2.length := by
        intro l
        induction l with
        | nil =>
          intro cur cur2 hh h1 h2
          have h0 := Option.some.inj hh
          subst h0
          exact ⟨h1, h2, le_refl _⟩
        | cons slot rest ihl =>
          intro cur cur2 hh h1 h2
          have hh2 : (match refineGo threshold a fuel
              ((cur.getD i default).children.getD slot 0) (scale * (a:ℚ)) cur with
            | none => none
            | some nodes1 => refineKids (fun c ns3 =>
                refineGo threshold a fuel c (scale * (a:ℚ)) ns3) i rest nodes1) =
              some cur2 := hh
          cases hr : refineGo threshold a fuel
              ((cur.getD i default).children.getD slot 0) (scale * (a:ℚ)) cur with
          | none =>
            simp only [hr] at hh2
            exact absurd hh2 (by simp)
          | some cur1 =>
            simp only [hr] at hh2
            obtain ⟨hS1, hA1, hl1⟩ := ih _ _ _ _ hr h1 h2
            obtain ⟨hS2, hA2, hl2⟩ := ihl cur1 cur2 hh2 hS1 hA1
            exact ⟨hS2, hA2, le_trans hl1 hl2⟩
      by_cases hleaf : n.isLeaf = true
      · rw [if_pos hleaf] at h
        by_cases hth : threshold ≤ n.density / scale
        · rw [if_pos hth] at h
          obtain ⟨hSs, hAs, hls⟩ := splitNodes_props ns i a ha hS hA hi
            (by rw [hgd]; exact hleaf)
          obtain ⟨hS2, hA2, hl2⟩ := hloop (List.range a) _ ns2 h hSs hAs
          exact ⟨hS2, hA2, by omega⟩
        · rw [if_neg hth] at h
          have h0 := Option.some.inj h
          subst h0
          refine ⟨?_, ?_, by simp [List.length_set]⟩
          · apply structOK_transfer (by simp [List.length_set]) (fun j => ?_) hS
            by_cases hj : j = i
            · subst hj
              rw [getD_set_self default hi, hgd]
              rfl
            · rw [getD_set_ne default (Ne.symm hj) _]
          · intro m hm
            rcases List.mem_or_eq_of_mem_set hm with h1 | h1
            · exact hA m h1
            · subst h1
              simp only [TreeNode.resetNode]
              constructor <;> norm_num
      · rw [if_neg hleaf] at h
        exact hloop (List.range a) ns ns2 h hS hA

theorem refine_inv (t t2 : BTreeDistribution) (fuel : ℕ)
    (hS : StructOK t.arity t.nodes) (hA : AccumOK t.nodes)
    (hne : 0 < t.nodes.length) (hrf : t.refine fuel = some t2) :
    t2.dim = t.dim ∧ StructOK t.arity t2.nodes ∧ AccumOK t2.nodes ∧
    0 < t2.nodes.length := by
  unfold BTreeDistribution.refine at hrf
  obtain ⟨ns, hns, ht2⟩ := Option.map_eq_some'.mp hrf
  have ha : 0 < t.arity := by
    unfold BTreeDistribution.arity
    positivity
  obtain ⟨hS2, hA2, hl2⟩ := refineGo_inv t.splitThreshold t.arity ha fuel 0 1
    t.nodes ns hns hS hA
  refine ⟨by rw [← ht2], by rw [← ht2]; exact hS2, by rw [← ht2]; exact hA2, ?_⟩
  rw [← ht2]
  simp only []
  omega

theorem goodRange_structOK {a dc : ℕ} {ns : List TreeNode}
    (hG : GoodRange a dc ns 0 ns.length) : StructOK a ns := by
  intro i hi
  obtain ⟨g1, g2, g3, g4⟩ := hG i (Nat.zero_le i) hi
  exact ⟨g1, fun hlf => (g4 hlf).1⟩

theorem goodRange_accumOK {a dc : ℕ} {ns : List TreeNode}
    (hG : GoodRange a dc ns 0 ns.length) : AccumOK ns := by
  intro n hn
  obtain ⟨j, hj, hje⟩ := List.mem_iff_getElem.mp hn
  obtain ⟨g1, g2, g3, g4⟩ := hG j (Nat.zero_le j) hj
  rw [List.getD_eq_getElem ns default hj, hje] at g2 g3
  exact ⟨g2, g3⟩

theorem build_inv (env : Env) (t T : BTreeDistribution)
    (hsq : ∀ q, 0 ≤ q → 0 ≤ env.sq q)
    (hS : StructOK t.arity t.nodes) (hA : AccumOK t.nodes)
    (hne : 0 < t.nodes.length) (hb : t.build env = some T) :
    T.dim = t.dim ∧ StructOK T.arity T.nodes ∧ AccumOK T.nodes ∧
    0 < T.nodes.length := by
  obtain ⟨hdim, hlrw, hst, hsm, hlen, hGR, hroot⟩ := build_good env t T hS hA hsq hne hb
  have harity : T.arity = t.arity := by
    unfold BTreeDistribution.arity
    rw [hdim]
  refine ⟨hdim, ?_, goodRange_accumOK hGR, hlen⟩
  rw [harity]
  exact goodRange_structOK hGR

theorem initialTree_inv (D : ℕ) :
    StructOK (initialTree D).arity (initialTree D).nodes ∧
    AccumOK (initialTree D).nodes ∧ 0 < (initialTree D).nodes.length := by
  have hnodes : (initialTree D).nodes =
      [⟨(List.replicate (2 ^ D) (0:ℕ)).set 0 0, 1, 0, 0⟩] := rfl
  have hpow : 0 < 2 ^ D := pow_pos (by norm_num) D
  have hch : ((List.replicate (2 ^ D) (0:ℕ)).set 0 0) =
      0 :: List.replicate (2 ^ D - 1) 0 := by
    have h1 : 2 ^ D = (2 ^ D - 1) + 1 := by omega
    conv_lhs => rw [h1]
    rw [List.replicate_succ, List.set_cons_zero]
  refine ⟨?_, ?_, by rw [hnodes]; simp⟩
  · intro i hi
    rw [hnodes] at hi
    simp only [List.length_cons, List.length_nil] at hi
    have hi0 : i = 0 := by omega
    subst hi0
    rw [hnodes]
    constructor
    · show ((List.replicate (2 ^ D) (0:ℕ)).set 0 0).length = (initialTree D).arity
      simp [List.length_set, List.length_replicate]
      rfl
    · intro hlf
      exact absurd hlf (by simp [TreeNode.isLeaf, hch])
  · intro n hn
    rw [hnodes] at hn
    simp only [List.mem_singleton] at hn
    subst hn
    constructor <;> norm_num

theorem reachable_inv (t : BTreeDistribution) (h : Reachable t) :
    StructOK t.arity t.nodes ∧ AccumOK t.nodes ∧ 0 < t.nodes.length := by
  induction h with
  | init D => exact initialTree_inv D
  | splatStep env t1 t2 x v w hr hv hw htgt hsp ih =>
    obtain ⟨hdim, hS2, hA2, hn2⟩ :=
      splat_inv env t1 t2 x v w hv hw htgt ih.1 ih.2.1 ih.2.2 hsp
    have harr : t2.arity = t1.arity := by
      unfold BTreeDistribution.arity
      rw [hdim]
    rw [harr]
    exact ⟨hS2, hA2, hn2⟩
  | buildStep env t1 t2 hr hsq hb ih =>
    obtain ⟨hdim, hS2, hA2, hn2⟩ :=
      build_inv env t1 t2 hsq ih.1 ih.2.1 ih.2.2 hb
    exact ⟨hS2, hA2, hn2⟩
  | refineStep t1 t2 fuel hr hrf ih =>
    obtain ⟨hdim, hS2, hA2, hn2⟩ :=
      refine_inv t1 t2 fuel ih.1 ih.2.1 ih.2.2 hrf
    have harr : t2.arity = t1.arity := by
      unfold BTreeDistribution.arity
      rw [hdim]
    rw [harr]
    exact ⟨hS2, hA2, hn2⟩

/-- C9 (amended).  Every tree reachable by the public operations satisfies the
pre-order invariant: every non-leaf node's `2^D` child indices are strictly
greater than its own index (and in range).  Consequently the recursive
descents `indexAt`, `sample`, `depth` and `splat` (including the filtered
deposit) all terminate within the fuel bound `node_count + 1`, i.e. they
visit at most `node_count` nodes per root-to-leaf path.  `refine` is NOT
bounded by the node count — it splits while it descends — see the
counterexample. -/
theorem reachable_structure_bounded_descent (t : BTreeDistribution)
    (h : Reachable t) :
    StructOK t.arity t.nodes ∧ 0 < t.nodes.length ∧
    (∀ x, x.length = t.dim → ∃ pr, t.indexAt x = some pr) ∧
    (∀ x, ∃ r, t.sample x = some r) ∧
    (∃ dp, t.depth = some dp) ∧
    (∀ env2 x v w, x.length = t.dim → ∃ t2, t.splat env2 x v w = some t2) := by
  obtain ⟨hS, hA, hne⟩ := reachable_inv t h
  refine ⟨hS, hne, ?_, ?_, ?_, ?_⟩
  · intro x hxl
    obtain ⟨j, dep, hj⟩ := indexAtGo_total t.dim t.nodes hS (t.nodes.length + 1)
      0 x 0 hne (by omega) hxl
    exact ⟨(j, dep), hj⟩
  · intro x
    exact sampleGo_total t hS (t.nodes.length + 1) 0 x (x.map fun _ => 0) 1
      hne (by omega)
  · exact depthGo_total t.arity t.nodes hS (t.nodes.length + 1) 0 hne (by omega)
  · intro env2 x v w hxl
    exact splat_total env2 t x v w hS hne hxl

theorem reachable_structure_bounded_descent_witness :
    StructOK (initialTree 1).arity (initialTree 1).nodes ∧
    0 < (initialTree 1).nodes.length ∧
    (∀ x, x.length = (initialTree 1).dim →
      ∃ pr, (initialTree 1).indexAt x = some pr) ∧
    (∀ x, ∃ r, (initialTree 1).sample x = some r) ∧
    (∃ dp, (initialTree 1).depth = some dp) ∧
    (∀ env2 x v w, x.length = (initialTree 1).dim →
      ∃ t2, (initialTree 1).splat env2 x v w = some t2) :=
  reachable_structure_bounded_descent (initialTree 1) (Reachable.init 1)

end guiding
